import Mathlib

/-!
Shallow embedding of the reclustering engine of `src/reclustering.rs`
(`run_reclustering`), together with proofs about the properties claimed for
it.  The pipeline is: fetch the analyst's reviewed edges, filter them by
review status, build an undirected graph, compute connected components,
fold in whitelisted universe records with no surviving edge as singleton
clusters, and transactionally materialize cluster / group / edge rows into
export tables.

Modelling conventions:
* `f64` is modelled as `ℚ`: the engine only extracts, defaults and copies
  numeric fields, never performs float arithmetic, so exact rationals are a
  faithful carrier.
* `serde_json::Value` payloads are modelled by `Json`: an association list
  of the field shapes the engine actually reads (`calculated_edge_weight`,
  `total_confidence`, `pre_rl_total_confidence`, `contributing_methods`),
  plus an uninterpreted scalar constructor for payloads it only carries.
* Freshly minted `Uuid::new_v4` cluster identifiers are modelled as the
  distinct naturals handed out by `List.enum`; only their distinctness is
  ever used by the engine.
* `petgraph`'s `UnGraph` is modelled by the insertion-ordered node list
  (`NodeIndex` = list position) and the list of added edges, which — like
  `petgraph::Graph::add_edge` — records one entry per `add_edge` call and
  permits parallel edges.
-/

namespace ExportOpinion

/-- A JSON field value, restricted to the shapes `run_reclustering` reads.
`methods` models an array deserializable as `Vec<(String, f64)>`;
`other` carries any payload the engine never interprets. -/
inductive JVal where
  | num : ℚ → JVal
  | str : String → JVal
  | methods : List (String × ℚ) → JVal
  | other : String → JVal
deriving DecidableEq

/-- A JSON document: an object (association list) or an uninterpreted
non-object scalar. -/
inductive Json where
  | obj : List (String × JVal) → Json
  | scalar : String → Json
deriving DecidableEq

/-- `Value::get(key)`: field lookup, `None` on non-objects. -/
def Json.get : Json → String → Option JVal
  | .obj kvs, k => kvs.lookup k
  | .scalar _, _ => none

/-- `Value::as_f64()` on a field value. -/
def JVal.asNum : JVal → Option ℚ
  | .num q => some q
  | _ => none

/-- `serde_json::from_value::<Vec<(String, f64)>>`: succeeds exactly on a
methods array. -/
def JVal.asMethods : JVal → Option (List (String × ℚ))
  | .methods l => some l
  | _ => none

/-- One row fetched from the analyst's `edge_visualization` table
(struct `RawEdgeVisualization` in `models.rs`). -/
structure RawEdgeVisualization where
  id : String
  entity_id_1 : Option String
  entity_id_2 : Option String
  service_id_1 : Option String
  service_id_2 : Option String
  confirmed_status : Option String
  details : Option Json
deriving DecidableEq

/-- Edge payload attached to graph edges (struct `EntityEdgeDetails` in
`models.rs`). -/
structure EntityEdgeDetails where
  contributing_methods : List (String × ℚ)
  total_confidence : ℚ
  pre_rl_total_confidence : ℚ
  calculated_edge_weight : ℚ
deriving DecidableEq

/-- First endpoint ID selected for the run's record type, with
`unwrap_or_default` (missing ⇒ `""`). -/
def getId1 (eos : String) (e : RawEdgeVisualization) : String :=
  if eos = "entity" then e.entity_id_1.getD "" else e.service_id_1.getD ""

/-- Second endpoint ID selected for the run's record type. -/
def getId2 (eos : String) (e : RawEdgeVisualization) : String :=
  if eos = "entity" then e.entity_id_2.getD "" else e.service_id_2.getD ""

/-- `edge.confirmed_status.as_deref().unwrap_or("PENDING_REVIEW")`. -/
def effectiveStatus (e : RawEdgeVisualization) : String :=
  e.confirmed_status.getD "PENDING_REVIEW"

/-- Valid connections: `CONFIRMED_MATCH` or `PENDING_REVIEW`;
`CONFIRMED_NON_MATCH` (and anything else) breaks the connection. -/
def isValidConnection (status : String) : Bool :=
  status == "PENDING_REVIEW" || status == "CONFIRMED_MATCH"

/-- `details.get("calculated_edge_weight").and_then(as_f64).unwrap_or(1.0)`. -/
def edgeWeightOf (e : RawEdgeVisualization) : ℚ :=
  ((e.details.bind (fun d => d.get "calculated_edge_weight")).bind JVal.asNum).getD 1

/-- The minimal payload synthesized by `json!` when `details` is absent. -/
def synthDetails (w : ℚ) : Json :=
  .obj [("contributing_methods", .methods []),
        ("total_confidence", .num w),
        ("pre_rl_total_confidence", .num w),
        ("calculated_edge_weight", .num w)]

/-- `edge.details.clone().unwrap_or_else(|| json!(...))`. -/
def edgeDetailsOf (e : RawEdgeVisualization) : Json :=
  e.details.getD (synthDetails (edgeWeightOf e))

/-- The `EntityEdgeDetails` payload built for the graph edge. -/
def mkPayload (edge_details : Json) (w : ℚ) : EntityEdgeDetails :=
  { contributing_methods :=
      ((edge_details.get "contributing_methods").bind JVal.asMethods).getD []
    total_confidence :=
      ((edge_details.get "total_confidence").bind JVal.asNum).getD w
    pre_rl_total_confidence :=
      ((edge_details.get "pre_rl_total_confidence").bind JVal.asNum).getD w
    calculated_edge_weight := w }

/-- One graph edge as recorded by `graph.add_edge` (endpoint `NodeIndex`es
plus payload). -/
structure GraphEdge where
  src : Nat
  dst : Nat
  payload : EntityEdgeDetails
deriving DecidableEq

/-- A `valid_edges_for_viz` tuple `(id1, id2, edge_weight, details, status)`. -/
abbrev VizTuple := String × String × ℚ × Json × String

/-- The state grown by the edge loop: the graph (`nodes` in insertion
order, so a `NodeIndex` is a position; `edges` as added) and the collected
`valid_edges_for_viz` tuples. -/
structure BuildState where
  nodes : List String
  edges : List GraphEdge
  viz : List VizTuple
deriving DecidableEq

/-- `node_map.entry(id).or_insert_with(|| graph.add_node(id))`: returns the
existing index of `id` or appends it as a fresh node. -/
def addNode (nodes : List String) (id : String) : Nat × List String :=
  match nodes.findIdx? (fun a => a = id) with
  | some i => (i, nodes)
  | none => (nodes.length, nodes ++ [id])

/-- Whether the edge loop keeps this edge: both selected endpoint IDs are
nonempty and the effective status is a valid connection. -/
def keepEdge (eos : String) (e : RawEdgeVisualization) : Bool :=
  !(getId1 eos e == "") && !(getId2 eos e == "") &&
    isValidConnection (effectiveStatus e)

/-- The `valid_edges_for_viz` tuple pushed for a kept edge. -/
def vizTuple (eos : String) (e : RawEdgeVisualization) : VizTuple :=
  (getId1 eos e, getId2 eos e, edgeWeightOf e, edgeDetailsOf e, effectiveStatus e)

/-- One iteration of the edge loop of `run_reclustering` (step 2):
skip empty-ID edges, skip invalid statuses, otherwise intern both endpoints
and record the graph edge and the visualization tuple. -/
def processEdge (eos : String) (st : BuildState) (e : RawEdgeVisualization) :
    BuildState :=
  if getId1 eos e = "" ∨ getId2 eos e = "" then st
  else if isValidConnection (effectiveStatus e) then
    { nodes := (addNode (addNode st.nodes (getId1 eos e)).2 (getId2 eos e)).2
      edges := st.edges ++
        [⟨(addNode st.nodes (getId1 eos e)).1,
          (addNode (addNode st.nodes (getId1 eos e)).2 (getId2 eos e)).1,
          mkPayload (edgeDetailsOf e) (edgeWeightOf e)⟩]
      viz := st.viz ++ [vizTuple eos e] }
  else st

/-- The whole edge loop: fold `processEdge` over the fetched edges starting
from the empty graph. -/
def buildGraph (eos : String) (es : List RawEdgeVisualization) : BuildState :=
  es.foldl (processEdge eos) ⟨[], [], []⟩

/-- `graph.neighbors(i)`: the endpoints opposite to `i` over all recorded
edges (parallel edges contribute one entry each). -/
def neighborsIn (edges : List GraphEdge) (i : Nat) : List Nat :=
  edges.foldr
    (fun e acc =>
      if e.src = i then e.dst :: acc
      else if e.dst = i then e.src :: acc else acc) []

/-- The adjacency function of a built graph. -/
def adjOf (st : BuildState) : Nat → List Nat :=
  neighborsIn st.edges

/-- The explicit-stack DFS of step 4: pop a node; if already visited, move
on, otherwise mark it visited and push its neighbors.  `n` is the node
count; stack entries are node indices, so the `¬ v < n` guard never fires
on a real graph and only bounds the recursion. -/
def dfsAux (adj : Nat → List Nat) (n : Nat) :
    List Nat → Finset Nat → Finset Nat
  | [], visited => visited
  | v :: stack, visited =>
    if h : v ∈ visited ∨ ¬ v < n then dfsAux adj n stack visited
    else dfsAux adj n (adj v ++ stack) (insert v visited)
termination_by stack visited => ((Finset.range n \ visited).card, stack.length)
decreasing_by
  · apply Prod.Lex.right
    exact Nat.lt_succ_self _
  · apply Prod.Lex.left
    apply Finset.card_lt_card
    rw [not_or, not_not] at h
    constructor
    · exact Finset.sdiff_subset_sdiff (le_refl _) (Finset.subset_insert _ _)
    · intro hsub
      have hv : v ∈ Finset.range n \ visited := by
        simp only [Finset.mem_sdiff, Finset.mem_range]
        exact ⟨h.2, h.1⟩
      have := hsub hv
      simp at this

/-- The component loop of step 4: walk the node indices in `order`; every
index not yet visited roots a DFS, and the nodes newly visited by that DFS
form one cluster (`current_cluster_nodes`). -/
def componentsFrom (adj : Nat → List Nat) (n : Nat) :
    List Nat → Finset Nat → List (Finset Nat)
  | [], _ => []
  | v :: order, visited =>
    if v ∈ visited ∨ ¬ v < n then componentsFrom adj n order visited
    else
      (dfsAux adj n [v] visited \ visited) ::
        componentsFrom adj n order (dfsAux adj n [v] visited)

/-- The member sets of the graph components, as record IDs, for a given
adjacency presentation and root order (the source uses `adjOf st` and
`graph.node_indices()`, i.e. `List.range`). -/
def componentSetsWith (st : BuildState) (adj : Nat → List Nat)
    (order : List Nat) : List (Finset String) :=
  (componentsFrom adj st.nodes.length order ∅).map
    (fun c => c.image (fun i => st.nodes.getD i ""))

/-- The singleton pass of step 4: every universe ID absent from
`node_map` gets its own single-member cluster. -/
def singletonSets (st : BuildState) (uni : List String) :
    List (Finset String) :=
  (uni.filter (fun u => !(st.nodes.contains u))).map (fun u => {u})

/-- A derived cluster: freshly minted identifier plus member set. -/
structure ClusterRec where
  cid : Nat
  members : Finset String
deriving DecidableEq

/-- The full cluster derivation (components first, then universe
singletons), with fresh identifiers minted as distinct naturals. -/
def deriveClustersWith (st : BuildState) (adj : Nat → List Nat)
    (order : List Nat) (uni : List String) : List ClusterRec :=
  (componentSetsWith st adj order ++ singletonSets st uni).enum.map
    (fun p => ⟨p.1, p.2⟩)

/-- Cluster derivation as the source runs it: the graph's own adjacency
and node indices in order. -/
def deriveClusters (st : BuildState) (uni : List String) :
    List ClusterRec :=
  deriveClustersWith st (adjOf st) (List.range st.nodes.length) uni

/-- `node_to_cluster_id` lookup: the identifier of the cluster containing
a record ID (the source fills this map exactly with each cluster's
members, so the first — unique, by disjointness — hit is the map entry). -/
def nodeToClusterId (cs : List ClusterRec) (x : String) : Option Nat :=
  (cs.find? (fun c => decide (x ∈ c.members))).map (fun c => c.cid)

/-- One row of the cluster export table (batch of step 5; timestamps and
the per-row freshly minted UUID carry no information and are omitted). -/
structure ClusterRow where
  cid : Nat
  name : String
  description : String
  entity_count : Nat
  group_count : Nat
  average_coherence_score : ℚ
  was_reviewed : Bool
deriving DecidableEq

/-- The cluster insert batch built from the derived clusters. -/
def clusterRowsOf (eos : String) (cs : List ClusterRec) : List ClusterRow :=
  cs.map (fun c =>
    { cid := c.cid
      name := eos.toUpper ++ "Cluster-" ++ toString c.cid
      description := "Re-clustered " ++ eos ++ " of " ++
        toString c.members.card ++ " " ++ eos ++
        "s based on user opinions (whitelisted datasets only)."
      entity_count := c.members.card
      group_count := 0
      average_coherence_score := 4 / 5
      was_reviewed := true })

/-- One row of the group export table (its freshly minted UUID, the
timestamps and the constant `confirmed_status = "CONFIRMED"` are
omitted). -/
structure GroupRow where
  id1 : String
  id2 : String
  group_cluster_id : Nat
  method_type : String
deriving DecidableEq

/-- The ordered pairs `(member_vec[i], member_vec[j])` for `i < j`,
exactly as the nested loop of step 5 enumerates them. -/
def pairsOf {α : Type} : List α → List (α × α)
  | [] => []
  | x :: xs => (xs.map (fun y => (x, y))) ++ pairsOf xs

/-- The group rows of one cluster: a self-referencing
`USER_REVIEW_ISOLATED` row for a single member, otherwise one
`USER_REVIEW_CONNECTED` row per pairwise combination (the source walks the
member set in hash order; the sorted enumeration is one such order, and
the claims proved below are enumeration-independent). -/
def groupRowsOfCluster (c : ClusterRec) : List GroupRow :=
  if (c.members.sort (· ≤ ·)).length = 1 then
    [{ id1 := (c.members.sort (· ≤ ·)).headD "",
       id2 := (c.members.sort (· ≤ ·)).headD "",
       group_cluster_id := c.cid, method_type := "USER_REVIEW_ISOLATED" }]
  else
    (pairsOf (c.members.sort (· ≤ ·))).map (fun p =>
      { id1 := p.1, id2 := p.2, group_cluster_id := c.cid,
        method_type := "USER_REVIEW_CONNECTED" })

/-- The group insert batch over all derived clusters. -/
def groupRows (cs : List ClusterRec) : List GroupRow :=
  (cs.map groupRowsOfCluster).flatten

/-- One row of the edge-visualization export table (fresh UUID, constant
`pipeline_run_id`, timestamp and `was_reviewed = true` omitted). -/
structure EdgeRow where
  cluster_id : Nat
  id1 : String
  id2 : String
  edge_weight : ℚ
  details : Json
  confirmed_status : String
deriving DecidableEq

/-- The edge-visualization loop of step 5: resolve each tuple's cluster by
looking up `id1` and then `id2` in `node_to_cluster_id`; if neither
resolves, the run aborts with the `anyhow!` integrity error. -/
def buildEdgeRows (cs : List ClusterRec) :
    List VizTuple → Except String (List EdgeRow)
  | [] => .ok []
  | (id1, id2, w, d, status) :: rest =>
    match (nodeToClusterId cs id1).orElse (fun _ => nodeToClusterId cs id2) with
    | none => .error ("Edge nodes not found in any cluster after reclustering for edge "
        ++ id1 ++ " - " ++ id2)
    | some cid =>
      (buildEdgeRows cs rest).map
        (fun rs => { cluster_id := cid, id1 := id1, id2 := id2,
                     edge_weight := w, details := d,
                     confirmed_status := status } :: rs)

/-- The three export tables a run writes (their names are derived from the
analyst / record type / timestamp, so one run owns exactly these three). -/
structure ExportDb where
  clusterTable : List ClusterRow
  groupTable : List GroupRow
  edgeTable : List EdgeRow
deriving DecidableEq

/-- The fallible statements executed inside the snapshot transaction. -/
inductive DbStep where
  | deleteClusters | deleteGroups | deleteEdges
  | insertClusters | insertGroups | insertEdges
  | commitStep
deriving DecidableEq

/-- Step 5's transaction body, with an injected-failure oracle `inj` for
each statement the database may refuse.  Statements act on the
transaction's pending state: the three deletes clear the tables, the three
bulk inserts (each skipped when its batch is empty, as in the source) fill
them, and the edge-row loop may abort with the integrity error.  Because
every insert follows the deletes, the committed state is independent of
the prior table contents. -/
def txBody (inj : DbStep → Bool) (eos : String) (cs : List ClusterRec)
    (viz : List VizTuple) : Except String ExportDb :=
  if inj .deleteClusters then .error "Failed to delete cluster export rows" else
  if inj .deleteGroups then .error "Failed to delete group export rows" else
  if inj .deleteEdges then .error "Failed to delete edge export rows" else
  if ¬(clusterRowsOf eos cs).isEmpty ∧ inj .insertClusters then
    .error "Failed to batch insert cluster records" else
  if ¬(groupRows cs).isEmpty ∧ inj .insertGroups then
    .error "Failed to batch insert group records" else
  match buildEdgeRows cs viz with
  | .error e => .error e
  | .ok eRows =>
    if ¬eRows.isEmpty ∧ inj .insertEdges then
      .error "Failed to batch insert edge visualization records" else
    if inj .commitStep then
      .error "Failed to commit re-clustering transaction" else
    .ok { clusterTable := clusterRowsOf eos cs,
          groupTable := groupRows cs,
          edgeTable := eRows }

/-- The whole snapshot write: run the transaction body; on success the
pending state is committed, on any failure the transaction rolls back and
the database is unchanged (the database's transactional contract). -/
def runSnapshotTx (inj : DbStep → Bool) (eos : String) (cs : List ClusterRec)
    (viz : List VizTuple) (db : ExportDb) : ExportDb × Option String :=
  match txBody inj eos cs viz with
  | .ok pending => (pending, none)
  | .error e => (db, some e)

/-! ### Facts about node interning -/

theorem addNode_cases (nodes : List String) (id : String) :
    (id ∈ nodes ∧ (addNode nodes id).2 = nodes) ∨
      (id ∉ nodes ∧ (addNode nodes id).2 = nodes ++ [id] ∧
        (addNode nodes id).1 = nodes.length) := by
  unfold addNode
  rcases h : nodes.findIdx? (fun a => decide (a = id)) with _ | i
  · right
    rw [List.findIdx?_eq_none_iff] at h
    refine ⟨fun hmem => ?_, rfl, rfl⟩
    have := h id hmem
    simp at this
  · left
    rw [List.findIdx?_eq_some_iff_getElem] at h
    obtain ⟨hlt, hp, -⟩ := h
    simp only [decide_eq_true_eq] at hp
    exact ⟨hp ▸ List.getElem_mem hlt, rfl⟩

theorem addNode_extends (nodes : List String) (id : String) :
    ∃ t, (addNode nodes id).2 = nodes ++ t := by
  rcases addNode_cases nodes id with ⟨-, h⟩ | ⟨-, h, -⟩
  · exact ⟨[], by simpa using h⟩
  · exact ⟨[id], h⟩

theorem addNode_mem (nodes : List String) (id : String) (a : String) :
    a ∈ (addNode nodes id).2 ↔ a ∈ nodes ∨ a = id := by
  rcases addNode_cases nodes id with ⟨hm, h⟩ | ⟨hm, h, -⟩ <;> rw [h]
  · constructor
    · exact Or.inl
    · rintro (ha | rfl)
      · exact ha
      · exact hm
  · simp

theorem addNode_nodup (nodes : List String) (id : String)
    (hn : nodes.Nodup) : (addNode nodes id).2.Nodup := by
  rcases addNode_cases nodes id with ⟨-, h⟩ | ⟨hm, h, -⟩ <;> rw [h]
  · exact hn
  · rw [List.nodup_append]
    exact ⟨hn, List.nodup_singleton id, by simp [hm]⟩

theorem addNode_lt (nodes : List String) (id : String) :
    (addNode nodes id).1 < (addNode nodes id).2.length := by
  unfold addNode
  rcases h : nodes.findIdx? (fun a => decide (a = id)) with _ | i
  · simp
  · rw [List.findIdx?_eq_some_iff_getElem] at h
    exact h.1

theorem addNode_getD (nodes : List String) (id : String) :
    (addNode nodes id).2.getD (addNode nodes id).1 "" = id := by
  unfold addNode
  rcases h : nodes.findIdx? (fun a => decide (a = id)) with _ | i
  · simp
  · rw [List.findIdx?_eq_some_iff_getElem] at h
    obtain ⟨hlt, hp, -⟩ := h
    simp only [decide_eq_true_eq] at hp
    simp only [List.getD_eq_getElem?_getD, List.getElem?_eq_getElem hlt]
    exact hp

theorem addNode_le_length (nodes : List String) (id : String) :
    nodes.length ≤ (addNode nodes id).2.length := by
  obtain ⟨t, h⟩ := addNode_extends nodes id
  rw [h]
  simp

/-! ### Invariants of the edge-loop fold -/

/-- Structural invariants of the build state: node names are interned once
(`Nodup`), edge endpoints are in-range node indices, and every
visualization tuple's endpoints are interned names. -/
structure BuildInv (st : BuildState) : Prop where
  nodup : st.nodes.Nodup
  src_lt : ∀ ge ∈ st.edges, ge.src < st.nodes.length
  dst_lt : ∀ ge ∈ st.edges, ge.dst < st.nodes.length
  viz_mem₁ : ∀ t ∈ st.viz, t.1 ∈ st.nodes
  viz_mem₂ : ∀ t ∈ st.viz, t.2.1 ∈ st.nodes

theorem processEdge_nodes_extends (eos : String) (st : BuildState)
    (e : RawEdgeVisualization) :
    ∃ t, (processEdge eos st e).nodes = st.nodes ++ t := by
  unfold processEdge
  split
  · exact ⟨[], by simp⟩
  split
  · obtain ⟨t1, h1⟩ := addNode_extends st.nodes (getId1 eos e)
    obtain ⟨t2, h2⟩ := addNode_extends (addNode st.nodes (getId1 eos e)).2 (getId2 eos e)
    exact ⟨t1 ++ t2, by rw [h2, h1, List.append_assoc]⟩
  · exact ⟨[], by simp⟩

theorem processEdge_inv (eos : String) (st : BuildState)
    (e : RawEdgeVisualization) (hi : BuildInv st) :
    BuildInv (processEdge eos st e) := by
  unfold processEdge
  split
  · exact hi
  split
  case isTrue hval =>
    set p1 := addNode st.nodes (getId1 eos e) with hp1
    set p2 := addNode p1.2 (getId2 eos e) with hp2
    have h1len : st.nodes.length ≤ p1.2.length := addNode_le_length _ _
    have h2len : p1.2.length ≤ p2.2.length := addNode_le_length _ _
    obtain ⟨t2, ht2⟩ := addNode_extends p1.2 (getId2 eos e)
    refine ⟨?_, ?_, ?_, ?_, ?_⟩
    · exact addNode_nodup _ _ (addNode_nodup _ _ hi.nodup)
    · intro ge hge
      rcases List.mem_append.mp hge with hm | hm
      · exact lt_of_lt_of_le (hi.src_lt ge hm) (le_trans h1len h2len)
      · simp only [List.mem_singleton] at hm
        subst hm
        exact lt_of_lt_of_le (addNode_lt _ _) h2len
    · intro ge hge
      rcases List.mem_append.mp hge with hm | hm
      · exact lt_of_lt_of_le (hi.dst_lt ge hm) (le_trans h1len h2len)
      · simp only [List.mem_singleton] at hm
        subst hm
        exact addNode_lt _ _
    · intro t ht
      rcases List.mem_append.mp ht with hm | hm
      · have := hi.viz_mem₁ t hm
        rw [ht2]
        rcases addNode_extends st.nodes (getId1 eos e) with ⟨t1, ht1⟩
        rw [ht1]
        simp only [List.mem_append]
        tauto
      · simp only [List.mem_singleton] at hm
        subst hm
        rw [ht2, List.mem_append]
        left
        rw [addNode_mem]
        right
        rfl
    · intro t ht
      rcases List.mem_append.mp ht with hm | hm
      · have := hi.viz_mem₂ t hm
        rw [ht2]
        rcases addNode_extends st.nodes (getId1 eos e) with ⟨t1, ht1⟩
        rw [ht1]
        simp only [List.mem_append]
        tauto
      · simp only [List.mem_singleton] at hm
        subst hm
        rw [addNode_mem]
        right
        rfl
  · exact hi

theorem foldl_processEdge_inv (eos : String) (es : List RawEdgeVisualization)
    (st : BuildState) (hi : BuildInv st) :
    BuildInv (es.foldl (processEdge eos) st) := by
  induction es generalizing st with
  | nil => exact hi
  | cons e es ih => exact ih _ (processEdge_inv eos st e hi)

theorem buildGraph_inv (eos : String) (es : List RawEdgeVisualization) :
    BuildInv (buildGraph eos es) := by
  apply foldl_processEdge_inv
  exact ⟨List.nodup_nil, by simp, by simp, by simp, by simp⟩

/-! ### What the edge loop keeps and records -/

theorem getD_append_left_of_lt (l t : List String) (i : Nat)
    (h : i < l.length) : (l ++ t).getD i "" = l.getD i "" := by
  simp only [List.getD_eq_getElem?_getD]
  rw [List.getElem?_append_left h]

theorem keepEdge_iff (eos : String) (e : RawEdgeVisualization) :
    keepEdge eos e = true ↔
      ¬(getId1 eos e = "" ∨ getId2 eos e = "") ∧
        isValidConnection (effectiveStatus e) = true := by
  simp [keepEdge, not_or, and_assoc]

theorem processEdge_of_not_keep (eos : String) (st : BuildState)
    (e : RawEdgeVisualization) (h : keepEdge eos e = false) :
    processEdge eos st e = st := by
  unfold processEdge
  split
  · rfl
  case isFalse hid =>
    rw [if_neg]
    intro hval
    rw [Bool.eq_false_iff] at h
    exact h ((keepEdge_iff eos e).mpr ⟨hid, hval⟩)

theorem processEdge_of_keep (eos : String) (st : BuildState)
    (e : RawEdgeVisualization) (h : keepEdge eos e = true) :
    processEdge eos st e =
      { nodes := (addNode (addNode st.nodes (getId1 eos e)).2 (getId2 eos e)).2
        edges := st.edges ++
          [⟨(addNode st.nodes (getId1 eos e)).1,
            (addNode (addNode st.nodes (getId1 eos e)).2 (getId2 eos e)).1,
            mkPayload (edgeDetailsOf e) (edgeWeightOf e)⟩]
        viz := st.viz ++ [vizTuple eos e] } := by
  rw [keepEdge_iff] at h
  unfold processEdge
  rw [if_neg h.1, if_pos h.2]

theorem processEdge_of_invalid (eos : String) (st : BuildState)
    (e : RawEdgeVisualization)
    (h : isValidConnection (effectiveStatus e) = false) :
    processEdge eos st e = st := by
  apply processEdge_of_not_keep
  simp [keepEdge, h]

theorem foldl_processEdge_filter (eos : String)
    (es : List RawEdgeVisualization) (st : BuildState) :
    es.foldl (processEdge eos) st =
      (es.filter (fun e => isValidConnection (effectiveStatus e))).foldl
        (processEdge eos) st := by
  induction es generalizing st with
  | nil => rfl
  | cons e es ih =>
    by_cases h : isValidConnection (effectiveStatus e) = true
    · have hf : (e :: es).filter (fun e => isValidConnection (effectiveStatus e)) =
          e :: es.filter (fun e => isValidConnection (effectiveStatus e)) := by
        simp [List.filter_cons, h]
      rw [hf, List.foldl_cons, List.foldl_cons, ih]
    · have hf : (e :: es).filter (fun e => isValidConnection (effectiveStatus e)) =
          es.filter (fun e => isValidConnection (effectiveStatus e)) := by
        simp [List.filter_cons, h]
      rw [hf, List.foldl_cons,
        processEdge_of_invalid eos st e (by simpa using h), ih]

/-- The graph and visualization output only depend on the
status-surviving edges: filtering first changes nothing. -/
theorem buildGraph_filter_valid (eos : String)
    (es : List RawEdgeVisualization) :
    buildGraph eos es =
      buildGraph eos
        (es.filter (fun e => isValidConnection (effectiveStatus e))) :=
  foldl_processEdge_filter eos es _

/-- Dropping an invalid (for instance `CONFIRMED_NON_MATCH`) edge from the
input changes nothing: the loop never adds it. -/
theorem buildGraph_drop_invalid (eos : String)
    (l1 l2 : List RawEdgeVisualization) (e : RawEdgeVisualization)
    (h : isValidConnection (effectiveStatus e) = false) :
    buildGraph eos (l1 ++ e :: l2) = buildGraph eos (l1 ++ l2) := by
  unfold buildGraph
  rw [List.foldl_append, List.foldl_append, List.foldl_cons,
    processEdge_of_invalid eos _ e h]

/-- The number of graph edges added by one loop iteration. -/
theorem processEdge_edges_length (eos : String) (st : BuildState)
    (e : RawEdgeVisualization) :
    (processEdge eos st e).edges.length =
      st.edges.length + (if keepEdge eos e then 1 else 0) := by
  by_cases h : keepEdge eos e = true
  · rw [processEdge_of_keep eos st e h, if_pos h]
    simp
  · rw [processEdge_of_not_keep eos st e (by simpa using h), if_neg h]
    rfl

theorem foldl_processEdge_viz (eos : String)
    (es : List RawEdgeVisualization) (st : BuildState) :
    (es.foldl (processEdge eos) st).viz =
      st.viz ++ (es.filter (keepEdge eos)).map (vizTuple eos) := by
  induction es generalizing st with
  | nil => simp
  | cons e es ih =>
    by_cases h : keepEdge eos e = true
    · rw [List.foldl_cons, ih, processEdge_of_keep eos st e h,
        List.filter_cons_of_pos h]
      simp
    · rw [List.foldl_cons, processEdge_of_not_keep eos st e (by simpa using h),
        List.filter_cons_of_neg (by simpa using h), ih]

/-- The `valid_edges_for_viz` list is exactly one tuple per kept edge, in
input order. -/
theorem buildGraph_viz (eos : String) (es : List RawEdgeVisualization) :
    (buildGraph eos es).viz = (es.filter (keepEdge eos)).map (vizTuple eos) := by
  unfold buildGraph
  rw [foldl_processEdge_viz]
  rfl

/-! ### Edge endpoints by name -/

/-- The pair of record IDs an added graph edge connects. -/
def edgeNamePair (st : BuildState) (ge : GraphEdge) : String × String :=
  (st.nodes.getD ge.src "", st.nodes.getD ge.dst "")

theorem foldl_processEdge_edge_names (eos : String)
    (es : List RawEdgeVisualization) (st : BuildState) (hi : BuildInv st) :
    (es.foldl (processEdge eos) st).edges.map
        (edgeNamePair (es.foldl (processEdge eos) st)) =
      st.edges.map (edgeNamePair st) ++
        (es.filter (keepEdge eos)).map
          (fun e => (getId1 eos e, getId2 eos e)) := by
  induction es generalizing st with
  | nil => simp
  | cons e es ih =>
    rw [List.foldl_cons]
    by_cases h : keepEdge eos e = true
    · rw [ih _ (processEdge_inv eos st e hi), List.filter_cons_of_pos h]
      rw [processEdge_of_keep eos st e h]
      have h1lt : (addNode st.nodes (getId1 eos e)).1 <
          (addNode st.nodes (getId1 eos e)).2.length := addNode_lt _ _
      obtain ⟨t2, ht2⟩ :=
        addNode_extends (addNode st.nodes (getId1 eos e)).2 (getId2 eos e)
      have hname1 :
          (addNode (addNode st.nodes (getId1 eos e)).2 (getId2 eos e)).2.getD
            (addNode st.nodes (getId1 eos e)).1 "" = getId1 eos e := by
        rw [ht2, getD_append_left_of_lt _ _ _ h1lt, addNode_getD]
      have hname2 :
          (addNode (addNode st.nodes (getId1 eos e)).2 (getId2 eos e)).2.getD
            (addNode (addNode st.nodes (getId1 eos e)).2 (getId2 eos e)).1 ""
            = getId2 eos e := addNode_getD _ _
      have hstable : ∀ ge ∈ st.edges,
          edgeNamePair
            { nodes := (addNode (addNode st.nodes (getId1 eos e)).2
                (getId2 eos e)).2
              edges := st.edges ++
                [⟨(addNode st.nodes (getId1 eos e)).1,
                  (addNode (addNode st.nodes (getId1 eos e)).2
                    (getId2 eos e)).1,
                  mkPayload (edgeDetailsOf e) (edgeWeightOf e)⟩]
              viz := st.viz ++ [vizTuple eos e] } ge = edgeNamePair st ge := by
        intro ge hge
        obtain ⟨t1, ht1⟩ := addNode_extends st.nodes (getId1 eos e)
        unfold edgeNamePair
        simp only
        rw [ht2, ht1, List.append_assoc,
          getD_append_left_of_lt _ _ _ (hi.src_lt ge hge),
          getD_append_left_of_lt _ _ _ (hi.dst_lt ge hge)]
      simp only [List.map_append, List.map_cons, List.map_nil,
        List.append_assoc]
      congr 1
      · exact List.map_congr_left hstable
      · simp only [List.map_cons, List.map_nil, edgeNamePair]
        rw [hname1, hname2, List.singleton_append]
    · rw [processEdge_of_not_keep eos st e (by simpa using h),
        List.filter_cons_of_neg (by simpa using h), ih st hi]

/-- Every graph edge's endpoint-name pair, in insertion order: one per
kept input edge, connecting exactly that edge's endpoint IDs. -/
theorem buildGraph_edge_names (eos : String)
    (es : List RawEdgeVisualization) :
    (buildGraph eos es).edges.map (edgeNamePair (buildGraph eos es)) =
      (es.filter (keepEdge eos)).map
        (fun e => (getId1 eos e, getId2 eos e)) := by
  unfold buildGraph
  have h0 : BuildInv (⟨[], [], []⟩ : BuildState) :=
    ⟨List.nodup_nil, by simp, by simp, by simp, by simp⟩
  rw [foldl_processEdge_edge_names eos es _ h0]
  rfl

/-- The number of edges the constructed graph has over an unordered pair
of record IDs (parallel edges counted individually). -/
def parallelCount (st : BuildState) (x y : String) : Nat :=
  (st.edges.map (edgeNamePair st)).countP
    (fun p => decide (p = (x, y) ∨ p = (y, x)))

/-- The number of kept input edges over an unordered pair of IDs. -/
def inputPairCount (eos : String) (es : List RawEdgeVisualization)
    (x y : String) : Nat :=
  (es.filter (keepEdge eos)).countP
    (fun e => decide ((getId1 eos e, getId2 eos e) = (x, y) ∨
      (getId1 eos e, getId2 eos e) = (y, x)))

theorem parallelCount_eq_inputPairCount (eos : String)
    (es : List RawEdgeVisualization) (x y : String) :
    parallelCount (buildGraph eos es) x y = inputPairCount eos es x y := by
  unfold parallelCount inputPairCount
  rw [buildGraph_edge_names, List.countP_map]
  rfl

/-! ### DFS correctness -/

/-- Graph reachability: the reflexive-transitive closure of one-step
adjacency. -/
abbrev Reach (adj : Nat → List Nat) : Nat → Nat → Prop :=
  Relation.ReflTransGen (fun a b => b ∈ adj a)

/-- A set of nodes closed under adjacency. -/
def ClosedUnder (adj : Nat → List Nat) (s : Finset Nat) : Prop :=
  ∀ x ∈ s, ∀ y ∈ adj x, y ∈ s

theorem reach_closed (adj : Nat → List Nat) (s : Finset Nat)
    (hc : ClosedUnder adj s) (a b : Nat) (hr : Reach adj a b) (ha : a ∈ s) :
    b ∈ s := by
  induction hr with
  | refl => exact ha
  | tail _ hstep ih => exact hc _ ih _ hstep

theorem reach_lt (adj : Nat → List Nat) (n : Nat)
    (hb : ∀ i j, j ∈ adj i → j < n) (a b : Nat) (hr : Reach adj a b)
    (ha : a < n) : b < n := by
  induction hr with
  | refl => exact ha
  | tail _ hstep _ => exact hb _ _ hstep

theorem reach_symm (adj : Nat → List Nat)
    (hs : ∀ i j, j ∈ adj i → i ∈ adj j) (a b : Nat) (hr : Reach adj a b) :
    Reach adj b a := by
  induction hr with
  | refl => exact Relation.ReflTransGen.refl
  | tail _ hstep ih => exact Relation.ReflTransGen.head (hs _ _ hstep) ih

theorem dfsAux_subset (adj : Nat → List Nat) (n : Nat) (stack : List Nat)
    (visited : Finset Nat) : visited ⊆ dfsAux adj n stack visited := by
  induction stack, visited using dfsAux.induct adj n with
  | case1 visited => rw [dfsAux]
  | case2 v stack visited h ih => rw [dfsAux, dif_pos h]; exact ih
  | case3 v stack visited h ih =>
    rw [dfsAux, dif_neg h]
    exact fun x hx => ih (Finset.mem_insert_of_mem hx)

theorem dfsAux_mem_stack (adj : Nat → List Nat) (n : Nat) (stack : List Nat)
    (visited : Finset Nat) :
    ∀ s ∈ stack, s < n → s ∈ dfsAux adj n stack visited := by
  induction stack, visited using dfsAux.induct adj n with
  | case1 visited => intro s hs; simp at hs
  | case2 v stack visited h ih =>
    rw [dfsAux, dif_pos h]
    intro s hs hlt
    rcases List.mem_cons.mp hs with rfl | hs
    · rcases h with h | h
      · exact dfsAux_subset adj n stack visited h
      · exact absurd hlt h
    · exact ih s hs hlt
  | case3 v stack visited h ih =>
    rw [dfsAux, dif_neg h]
    intro s hs hlt
    rcases List.mem_cons.mp hs with rfl | hs
    · exact dfsAux_subset adj n _ _ (Finset.mem_insert_self s visited)
    · exact ih s (List.mem_append_right _ hs) hlt

theorem dfsAux_mem_lt (adj : Nat → List Nat) (n : Nat) (stack : List Nat)
    (visited : Finset Nat) :
    ∀ x ∈ dfsAux adj n stack visited, x ∈ visited ∨ x < n := by
  induction stack, visited using dfsAux.induct adj n with
  | case1 visited => intro x hx; rw [dfsAux] at hx; exact Or.inl hx
  | case2 v stack visited h ih =>
    rw [dfsAux, dif_pos h]
    exact ih
  | case3 v stack visited h ih =>
    rw [dfsAux, dif_neg h]
    rw [not_or, not_not] at h
    intro x hx
    rcases ih x hx with hin | hlt
    · rcases Finset.mem_insert.mp hin with rfl | hin
      · exact Or.inr h.2
      · exact Or.inl hin
    · exact Or.inr hlt

theorem dfsAux_closed_step (adj : Nat → List Nat) (n : Nat)
    (stack : List Nat) (visited : Finset Nat) :
    ∀ x ∈ dfsAux adj n stack visited, x ∉ visited →
      ∀ y ∈ adj x, y < n → y ∈ dfsAux adj n stack visited := by
  induction stack, visited using dfsAux.induct adj n with
  | case1 visited =>
    intro x hx hnx
    rw [dfsAux] at hx
    exact absurd hx hnx
  | case2 v stack visited h ih =>
    rw [dfsAux, dif_pos h]
    exact ih
  | case3 v stack visited h ih =>
    rw [dfsAux, dif_neg h]
    intro x hx hnx y hy hylt
    by_cases hxi : x ∈ insert v visited
    · have hxv : x = v := by
        rcases Finset.mem_insert.mp hxi with rfl | hxi
        · rfl
        · exact absurd hxi hnx
      subst hxv
      exact dfsAux_mem_stack adj n _ _ y (List.mem_append_left _ hy) hylt
    · exact ih x hx hxi y hy hylt

theorem dfsAux_sound (adj : Nat → List Nat) (n : Nat) (stack : List Nat)
    (visited : Finset Nat) :
    ∀ x ∈ dfsAux adj n stack visited,
      x ∈ visited ∨ ∃ s ∈ stack, Reach adj s x := by
  induction stack, visited using dfsAux.induct adj n with
  | case1 visited =>
    intro x hx
    rw [dfsAux] at hx
    exact Or.inl hx
  | case2 v stack visited h ih =>
    rw [dfsAux, dif_pos h]
    intro x hx
    rcases ih x hx with hin | ⟨s, hs, hr⟩
    · exact Or.inl hin
    · exact Or.inr ⟨s, List.mem_cons_of_mem _ hs, hr⟩
  | case3 v stack visited h ih =>
    rw [dfsAux, dif_neg h]
    intro x hx
    rcases ih x hx with hin | ⟨s, hs, hr⟩
    · rcases Finset.mem_insert.mp hin with rfl | hin
      · exact Or.inr ⟨x, List.mem_cons_self x stack, Relation.ReflTransGen.refl⟩
      · exact Or.inl hin
    · rcases List.mem_append.mp hs with hsv | hss
      · exact Or.inr ⟨v, List.mem_cons_self v stack,
          Relation.ReflTransGen.head hsv hr⟩
      · exact Or.inr ⟨s, List.mem_cons_of_mem _ hss, hr⟩

theorem dfsAux_closedUnder (adj : Nat → List Nat) (n : Nat)
    (hb : ∀ i j, j ∈ adj i → j < n) (stack : List Nat)
    (visited : Finset Nat) (hc : ClosedUnder adj visited) :
    ClosedUnder adj (dfsAux adj n stack visited) := by
  intro x hx y hy
  by_cases hxv : x ∈ visited
  · exact dfsAux_subset adj n stack visited (hc x hxv y hy)
  · exact dfsAux_closed_step adj n stack visited x hx hxv y hy (hb x y hy)

theorem dfsAux_singleton_mem (adj : Nat → List Nat) (n : Nat)
    (hb : ∀ i j, j ∈ adj i → j < n) (v : Nat) (visited : Finset Nat)
    (hc : ClosedUnder adj visited) (hvlt : v < n) :
    ∀ x, x ∈ dfsAux adj n [v] visited ↔ x ∈ visited ∨ Reach adj v x := by
  intro x
  constructor
  · intro hx
    rcases dfsAux_sound adj n [v] visited x hx with hin | ⟨s, hs, hr⟩
    · exact Or.inl hin
    · rw [List.mem_singleton] at hs
      subst hs
      exact Or.inr hr
  · rintro (hin | hr)
    · exact dfsAux_subset adj n [v] visited hin
    · exact reach_closed adj _ (dfsAux_closedUnder adj n hb [v] visited hc)
        v x hr (dfsAux_mem_stack adj n [v] visited v (List.mem_singleton_self v) hvlt)

theorem dfsAux_component (adj : Nat → List Nat) (n : Nat)
    (hb : ∀ i j, j ∈ adj i → j < n)
    (hs : ∀ i j, j ∈ adj i → i ∈ adj j) (v : Nat) (visited : Finset Nat)
    (hc : ClosedUnder adj visited) (hvlt : v < n) (hvn : v ∉ visited) :
    ∀ x, x ∈ dfsAux adj n [v] visited \ visited ↔ Reach adj v x := by
  intro x
  rw [Finset.mem_sdiff]
  constructor
  · rintro ⟨hx, hnx⟩
    rcases (dfsAux_singleton_mem adj n hb v visited hc hvlt x).mp hx with hin | hr
    · exact absurd hin hnx
    · exact hr
  · intro hr
    refine ⟨(dfsAux_singleton_mem adj n hb v visited hc hvlt x).mpr (Or.inr hr), ?_⟩
    intro hxv
    exact hvn (reach_closed adj visited hc x v (reach_symm adj hs v x hr) hxv)

/-! ### Component-loop correctness -/

/-- What the component loop guarantees: each emitted cluster is the
reachability class of an unvisited root, clusters contain only fresh
in-range nodes, every in-range root offered by `order` lands in some
cluster, and clusters are pairwise disjoint. -/
structure CompsSpec (adj : Nat → List Nat) (n : Nat) (order : List Nat)
    (visited : Finset Nat) (comps : List (Finset Nat)) : Prop where
  roots : ∀ c ∈ comps, ∃ r, r < n ∧ r ∉ visited ∧ ∀ x, x ∈ c ↔ Reach adj r x
  fresh : ∀ c ∈ comps, ∀ x ∈ c, x ∉ visited
  bounded : ∀ c ∈ comps, ∀ x ∈ c, x < n
  covers : ∀ r ∈ order, r < n → r ∉ visited → ∃ c ∈ comps, r ∈ c
  disj : List.Pairwise (fun c d => ∀ x, x ∈ c → x ∉ d) comps

theorem componentsFrom_spec (adj : Nat → List Nat) (n : Nat)
    (hb : ∀ i j, j ∈ adj i → j < n)
    (hsym : ∀ i j, j ∈ adj i → i ∈ adj j) (order : List Nat)
    (visited : Finset Nat) (hc : ClosedUnder adj visited) :
    CompsSpec adj n order visited (componentsFrom adj n order visited) := by
  induction order generalizing visited with
  | nil =>
    rw [componentsFrom]
    exact ⟨by simp, by simp, by simp, by simp, List.Pairwise.nil⟩
  | cons v order ih =>
    rw [componentsFrom]
    by_cases hcond : v ∈ visited ∨ ¬ v < n
    · rw [if_pos hcond]
      obtain ⟨hroots, hfresh, hbdd, hcov, hdisj⟩ := ih visited hc
      refine ⟨hroots, hfresh, hbdd, ?_, hdisj⟩
      intro r hr hlt hnv
      rcases List.mem_cons.mp hr with rfl | hr
      · rcases hcond with hcond | hcond
        · exact absurd hcond hnv
        · exact absurd hlt hcond
      · exact hcov r hr hlt hnv
    · rw [if_neg hcond]
      rw [not_or, not_not] at hcond
      obtain ⟨hvn, hvlt⟩ := hcond
      have hcomp := dfsAux_component adj n hb hsym v visited hc hvlt hvn
      have hsub : visited ⊆ dfsAux adj n [v] visited :=
        dfsAux_subset adj n [v] visited
      have hc' : ClosedUnder adj (dfsAux adj n [v] visited) :=
        dfsAux_closedUnder adj n hb [v] visited hc
      obtain ⟨hroots, hfresh, hbdd, hcov, hdisj⟩ :=
        ih (dfsAux adj n [v] visited) hc'
      constructor
      · intro c hcm
        rcases List.mem_cons.mp hcm with rfl | hcm
        · exact ⟨v, hvlt, hvn, hcomp⟩
        · obtain ⟨r, hrlt, hrn, hrc⟩ := hroots c hcm
          exact ⟨r, hrlt, fun hmem => hrn (hsub hmem), hrc⟩
      · intro c hcm x hx
        rcases List.mem_cons.mp hcm with rfl | hcm
        · exact (Finset.mem_sdiff.mp hx).2
        · exact fun hmem => hfresh c hcm x hx (hsub hmem)
      · intro c hcm x hx
        rcases List.mem_cons.mp hcm with rfl | hcm
        · exact reach_lt adj n hb v x ((hcomp x).mp hx) hvlt
        · exact hbdd c hcm x hx
      · intro r hr hlt hnv
        rcases List.mem_cons.mp hr with rfl | hr
        · exact ⟨_, List.mem_cons_self _ _,
            (hcomp r).mpr Relation.ReflTransGen.refl⟩
        · by_cases hrv : r ∈ dfsAux adj n [v] visited
          · exact ⟨_, List.mem_cons_self _ _,
              Finset.mem_sdiff.mpr ⟨hrv, hnv⟩⟩
          · obtain ⟨c, hcm, hrc⟩ := hcov r hr hlt hrv
            exact ⟨c, List.mem_cons_of_mem _ hcm, hrc⟩
      · refine List.Pairwise.cons ?_ hdisj
        intro d hd x hx
        intro hxd
        exact hfresh d hd x hxd (Finset.mem_sdiff.mp hx).1

/-! ### The built graph's adjacency -/

theorem neighborsIn_cons (e : GraphEdge) (es : List GraphEdge) (i : Nat) :
    neighborsIn (e :: es) i =
      if e.src = i then e.dst :: neighborsIn es i
      else if e.dst = i then e.src :: neighborsIn es i
      else neighborsIn es i := rfl

theorem neighborsIn_mem (edges : List GraphEdge) (i j : Nat) :
    j ∈ neighborsIn edges i ↔
      ∃ ge ∈ edges, (ge.src = i ∧ ge.dst = j) ∨ (ge.dst = i ∧ ge.src = j) := by
  induction edges with
  | nil => simp [neighborsIn]
  | cons e es ih =>
    rw [neighborsIn_cons]
    by_cases h1 : e.src = i
    · rw [if_pos h1]
      simp only [List.mem_cons, ih, List.mem_cons]
      constructor
      · rintro (rfl | ⟨ge, hge, hor⟩)
        · exact ⟨e, Or.inl rfl, Or.inl ⟨h1, rfl⟩⟩
        · exact ⟨ge, Or.inr hge, hor⟩
      · rintro ⟨ge, (rfl | hge), hor⟩
        · rcases hor with ⟨-, rfl⟩ | ⟨hd, hsj⟩
          · exact Or.inl rfl
          · left
            omega
        · exact Or.inr ⟨ge, hge, hor⟩
    · rw [if_neg h1]
      by_cases h2 : e.dst = i
      · rw [if_pos h2]
        simp only [List.mem_cons, ih]
        constructor
        · rintro (rfl | ⟨ge, hge, hor⟩)
          · exact ⟨e, Or.inl rfl, Or.inr ⟨h2, rfl⟩⟩
          · exact ⟨ge, Or.inr hge, hor⟩
        · rintro ⟨ge, (rfl | hge), hor⟩
          · rcases hor with ⟨hsi, -⟩ | ⟨-, rfl⟩
            · exact absurd hsi h1
            · exact Or.inl rfl
          · exact Or.inr ⟨ge, hge, hor⟩
      · rw [if_neg h2, ih]
        constructor
        · rintro ⟨ge, hge, hor⟩
          exact ⟨ge, List.mem_cons_of_mem _ hge, hor⟩
        · rintro ⟨ge, hge, hor⟩
          rcases List.mem_cons.mp hge with rfl | hge
          · rcases hor with ⟨hsi, -⟩ | ⟨hdi, -⟩
            · exact absurd hsi h1
            · exact absurd hdi h2
          · exact ⟨ge, hge, hor⟩

theorem adjOf_lt (st : BuildState) (hi : BuildInv st) :
    ∀ i j, j ∈ adjOf st i → j < st.nodes.length := by
  intro i j hj
  rw [adjOf, neighborsIn_mem] at hj
  obtain ⟨ge, hge, hor⟩ := hj
  rcases hor with ⟨-, rfl⟩ | ⟨-, rfl⟩
  · exact hi.dst_lt ge hge
  · exact hi.src_lt ge hge

theorem adjOf_symm (st : BuildState) :
    ∀ i j, j ∈ adjOf st i → i ∈ adjOf st j := by
  intro i j hj
  rw [adjOf, neighborsIn_mem] at hj
  rw [adjOf, neighborsIn_mem]
  obtain ⟨ge, hge, hor⟩ := hj
  rcases hor with ⟨hs, hd⟩ | ⟨hd, hs⟩
  · exact ⟨ge, hge, Or.inr ⟨hd, hs⟩⟩
  · exact ⟨ge, hge, Or.inl ⟨hs, hd⟩⟩

/-! ### The derived clusters -/

/-- The union of a family of member sets. -/
def memberUnion (l : List (Finset String)) : Finset String :=
  l.foldr (· ∪ ·) ∅

theorem mem_memberUnion (l : List (Finset String)) (x : String) :
    x ∈ memberUnion l ↔ ∃ s ∈ l, x ∈ s := by
  induction l with
  | nil => simp [memberUnion]
  | cons s l ih =>
    unfold memberUnion at *
    simp [ih]

theorem deriveClustersWith_members (st : BuildState) (adj : Nat → List Nat)
    (order : List Nat) (uni : List String) :
    (deriveClustersWith st adj order uni).map (fun c => c.members) =
      componentSetsWith st adj order ++ singletonSets st uni := by
  unfold deriveClustersWith
  rw [List.map_map]
  exact List.enum_map_snd _

theorem deriveClustersWith_cids (st : BuildState) (adj : Nat → List Nat)
    (order : List Nat) (uni : List String) :
    (deriveClustersWith st adj order uni).map (fun c => c.cid) =
      List.range (componentSetsWith st adj order ++ singletonSets st uni).length := by
  unfold deriveClustersWith
  rw [List.map_map]
  exact List.enum_map_fst _

theorem deriveClusters_cid_nodup (st : BuildState) (uni : List String) :
    ((deriveClusters st uni).map (fun c => c.cid)).Nodup := by
  rw [deriveClusters, deriveClustersWith_cids]
  exact List.nodup_range _

/-- Names of component members are interned node names. -/
theorem componentSetsWith_subset_nodes (st : BuildState)
    (adj : Nat → List Nat) (order : List Nat)
    (hb : ∀ i j, j ∈ adj i → j < st.nodes.length)
    (hsym : ∀ i j, j ∈ adj i → i ∈ adj j) :
    ∀ s ∈ componentSetsWith st adj order, ∀ x ∈ s, x ∈ st.nodes := by
  intro s hsm x hx
  unfold componentSetsWith at hsm
  obtain ⟨c, hcm, rfl⟩ := List.mem_map.mp hsm
  obtain ⟨i, hic, rfl⟩ := Finset.mem_image.mp hx
  have hspec := componentsFrom_spec adj st.nodes.length hb hsym order ∅
    (by intro a ha; simp at ha)
  have hilt := hspec.bounded c hcm i hic
  rw [List.getD_eq_getElem?_getD, List.getElem?_eq_getElem hilt]
  exact List.getElem_mem hilt

theorem memberUnion_append (a b : List (Finset String)) :
    memberUnion (a ++ b) = memberUnion a ∪ memberUnion b := by
  induction a with
  | nil => simp [memberUnion]
  | cons s a ih =>
    unfold memberUnion at *
    simp only [List.cons_append, List.foldr_cons, ih, Finset.union_assoc]

theorem componentSetsWith_union (st : BuildState) (hi : BuildInv st) :
    memberUnion (componentSetsWith st (adjOf st) (List.range st.nodes.length)) =
      st.nodes.toFinset := by
  have hb := adjOf_lt st hi
  have hsym := adjOf_symm st
  have hspec := componentsFrom_spec (adjOf st) st.nodes.length hb hsym
    (List.range st.nodes.length) ∅ (by intro a ha; simp at ha)
  ext x
  constructor
  · intro hx
    obtain ⟨s, hsm, hxs⟩ := (mem_memberUnion _ x).mp hx
    exact List.mem_toFinset.mpr
      (componentSetsWith_subset_nodes st (adjOf st) _ hb hsym s hsm x hxs)
  · intro hx
    obtain ⟨i, hilt, rfl⟩ := List.mem_iff_getElem.mp (List.mem_toFinset.mp hx)
    obtain ⟨c, hcm, hic⟩ := hspec.covers i (List.mem_range.mpr hilt) hilt
      (Finset.not_mem_empty i)
    rw [mem_memberUnion]
    refine ⟨c.image (fun i => st.nodes.getD i ""), ?_, ?_⟩
    · exact List.mem_map.mpr ⟨c, hcm, rfl⟩
    · refine Finset.mem_image.mpr ⟨i, hic, ?_⟩
      rw [List.getD_eq_getElem?_getD, List.getElem?_eq_getElem hilt]
      rfl

theorem not_contains_iff (l : List String) (u : String) :
    (!(l.contains u)) = true ↔ u ∉ l := by
  simp

theorem singletonSets_union (st : BuildState) (uni : List String) :
    memberUnion (singletonSets st uni) =
      (uni.filter (fun u => !(st.nodes.contains u))).toFinset := by
  ext x
  rw [mem_memberUnion, List.mem_toFinset]
  unfold singletonSets
  constructor
  · rintro ⟨s, hsm, hxs⟩
    obtain ⟨u, hum, rfl⟩ := List.mem_map.mp hsm
    rw [Finset.mem_singleton] at hxs
    subst hxs
    exact hum
  · intro hx
    exact ⟨{x}, List.mem_map.mpr ⟨x, hx, rfl⟩, Finset.mem_singleton_self x⟩

/-- The union of all derived member sets: the interned node names plus the
whole universe. -/
theorem deriveClusters_union (st : BuildState) (uni : List String)
    (hi : BuildInv st) :
    memberUnion ((deriveClusters st uni).map (fun c => c.members)) =
      st.nodes.toFinset ∪ uni.toFinset := by
  rw [deriveClusters, deriveClustersWith_members, memberUnion_append,
    componentSetsWith_union st hi, singletonSets_union]
  ext x
  simp only [Finset.mem_union, List.mem_toFinset, List.mem_filter,
    not_contains_iff]
  by_cases hx : x ∈ st.nodes
  · simp [hx]
  · simp [hx]

/-- The derived member sets are pairwise disjoint (duplicate-free
universe). -/
theorem deriveClusters_disjoint (st : BuildState) (uni : List String)
    (hi : BuildInv st) (hu : uni.Nodup) :
    List.Pairwise (fun a b => Disjoint a b)
      ((deriveClusters st uni).map (fun c => c.members)) := by
  have hb := adjOf_lt st hi
  have hsym := adjOf_symm st
  have hspec := componentsFrom_spec (adjOf st) st.nodes.length hb hsym
    (List.range st.nodes.length) ∅ (by intro a ha; simp at ha)
  rw [deriveClusters, deriveClustersWith_members]
  rw [List.pairwise_append]
  refine ⟨?_, ?_, ?_⟩
  · -- components pairwise disjoint, transported through the name map
    unfold componentSetsWith
    rw [List.pairwise_map]
    refine hspec.disj.imp_of_mem ?_
    intro c d hcm hdm hcd
    rw [Finset.disjoint_left]
    intro x hxc hxd
    obtain ⟨i, hic, hix⟩ := Finset.mem_image.mp hxc
    obtain ⟨j, hjd, hjx⟩ := Finset.mem_image.mp hxd
    have hilt := hspec.bounded c hcm i hic
    have hjlt := hspec.bounded d hdm j hjd
    have hij : i = j := by
      rw [List.getD_eq_getElem?_getD, List.getElem?_eq_getElem hilt] at hix
      rw [List.getD_eq_getElem?_getD, List.getElem?_eq_getElem hjlt] at hjx
      simp only [Option.getD_some] at hix hjx
      apply (hi.nodup.getElem_inj_iff).mp
      rw [hix, hjx]
    subst hij
    exact hcd i hic hjd
  · -- singleton sets pairwise disjoint, by universe distinctness
    unfold singletonSets
    rw [List.pairwise_map]
    have : (uni.filter (fun u => !(st.nodes.contains u))).Nodup :=
      hu.filter _
    refine this.imp_of_mem ?_
    intro a b ham hbm hab
    exact Finset.disjoint_singleton.mpr hab
  · -- a component set never meets a universe singleton
    intro s hsm t htm
    obtain ⟨u, hum, rfl⟩ := List.mem_map.mp htm
    rw [List.mem_filter, not_contains_iff] at hum
    rw [Finset.disjoint_right]
    intro x hxt hxs
    rw [Finset.mem_singleton] at hxt
    subst hxt
    exact hum.2 (componentSetsWith_subset_nodes st (adjOf st) _ hb hsym s hsm x hxs)

/-! ### Order- and presentation-independence of the derived family -/

theorem reach_congr (adj1 adj2 : Nat → List Nat)
    (hmem : ∀ i j, j ∈ adj1 i ↔ j ∈ adj2 i) (a b : Nat)
    (hr : Reach adj1 a b) : Reach adj2 a b := by
  induction hr with
  | refl => exact Relation.ReflTransGen.refl
  | tail _ hstep ih =>
    exact Relation.ReflTransGen.tail ih ((hmem _ _).mp hstep)

theorem reach_class_eq (adj : Nat → List Nat)
    (hsym : ∀ i j, j ∈ adj i → i ∈ adj j) (r r' : Nat)
    (hr : Reach adj r r') :
    ∀ x, Reach adj r x ↔ Reach adj r' x := by
  intro x
  constructor
  · intro hx
    exact Relation.ReflTransGen.trans (reach_symm adj hsym r r' hr) hx
  · intro hx
    exact Relation.ReflTransGen.trans hr hx

theorem componentsFrom_family_eq (n : Nat) (adj1 adj2 : Nat → List Nat)
    (o1 o2 : List Nat) (hmem : ∀ i j, j ∈ adj1 i ↔ j ∈ adj2 i)
    (hb1 : ∀ i j, j ∈ adj1 i → j < n)
    (hs1 : ∀ i j, j ∈ adj1 i → i ∈ adj1 j)
    (ho1 : ∀ i, i < n → i ∈ o1) (ho2 : ∀ i, i < n → i ∈ o2) :
    (componentsFrom adj1 n o1 ∅).toFinset =
      (componentsFrom adj2 n o2 ∅).toFinset := by
  have hb2 : ∀ i j, j ∈ adj2 i → j < n :=
    fun i j hj => hb1 i j ((hmem i j).mpr hj)
  have hs2 : ∀ i j, j ∈ adj2 i → i ∈ adj2 j :=
    fun i j hj => (hmem j i).mp (hs1 i j ((hmem i j).mpr hj))
  have hspec1 := componentsFrom_spec adj1 n hb1 hs1 o1 ∅
    (by intro a ha; simp at ha)
  have hspec2 := componentsFrom_spec adj2 n hb2 hs2 o2 ∅
    (by intro a ha; simp at ha)
  have key : ∀ (adjA adjB : Nat → List Nat) (oA oB : List Nat),
      (∀ i j, j ∈ adjA i ↔ j ∈ adjB i) →
      (∀ i j, j ∈ adjB i → i ∈ adjB j) →
      CompsSpec adjA n oA ∅ (componentsFrom adjA n oA ∅) →
      CompsSpec adjB n oB ∅ (componentsFrom adjB n oB ∅) →
      (∀ i, i < n → i ∈ oB) →
      ∀ c ∈ componentsFrom adjA n oA ∅, c ∈ componentsFrom adjB n oB ∅ := by
    intro adjA adjB oA oB hAB hsB hspecA hspecB hoB c hcm
    obtain ⟨r, hrlt, -, hrc⟩ := hspecA.roots c hcm
    obtain ⟨d, hdm, hrd⟩ := hspecB.covers r (hoB r hrlt) hrlt
      (Finset.not_mem_empty r)
    obtain ⟨r', hrlt', -, hrd'⟩ := hspecB.roots d hdm
    have hrr' : Reach adjB r' r := (hrd' r).mp hrd
    have hcd : c = d := by
      ext x
      rw [hrc x, hrd' x]
      constructor
      · intro hx
        exact ((reach_class_eq adjB hsB r' r hrr' x).mpr
          (reach_congr adjA adjB hAB r x hx))
      · intro hx
        exact reach_congr adjB adjA (fun i j => (hAB i j).symm) r x
          ((reach_class_eq adjB hsB r' r hrr' x).mp hx)
    rw [hcd]
    exact hdm
  ext c
  simp only [List.mem_toFinset]
  constructor
  · exact key adj1 adj2 o1 o2 hmem hs2 hspec1 hspec2 ho2 c
  · exact key adj2 adj1 o2 o1 (fun i j => (hmem i j).symm) hs1 hspec2 hspec1
      ho1 c

/-- The family of derived member sets does not depend on the root order,
the adjacency-list presentation, or the order of the universe list. -/
theorem deriveClustersWith_family_eq (st : BuildState) (hi : BuildInv st)
    (adj1 adj2 : Nat → List Nat) (o1 o2 : List Nat)
    (uni1 uni2 : List String)
    (hmem1 : ∀ i j, j ∈ adj1 i ↔ j ∈ adjOf st i)
    (hmem2 : ∀ i j, j ∈ adj2 i ↔ j ∈ adjOf st i)
    (ho1 : ∀ i, i < st.nodes.length → i ∈ o1)
    (ho2 : ∀ i, i < st.nodes.length → i ∈ o2)
    (hperm : uni1.Perm uni2) :
    ((deriveClustersWith st adj1 o1 uni1).map (fun c => c.members)).toFinset =
      ((deriveClustersWith st adj2 o2 uni2).map (fun c => c.members)).toFinset := by
  rw [deriveClustersWith_members, deriveClustersWith_members,
    List.toFinset_append, List.toFinset_append]
  have hb1 : ∀ i j, j ∈ adj1 i → j < st.nodes.length :=
    fun i j hj => adjOf_lt st hi i j ((hmem1 i j).mp hj)
  have hs1 : ∀ i j, j ∈ adj1 i → i ∈ adj1 j :=
    fun i j hj => (hmem1 j i).mpr (adjOf_symm st i j ((hmem1 i j).mp hj))
  have hfam := componentsFrom_family_eq st.nodes.length adj1 adj2 o1 o2
    (fun i j => (hmem1 i j).trans (hmem2 i j).symm) hb1 hs1 ho1 ho2
  congr 1
  · unfold componentSetsWith
    have hmm : ∀ c, c ∈ componentsFrom adj1 st.nodes.length o1 ∅ ↔
        c ∈ componentsFrom adj2 st.nodes.length o2 ∅ := by
      intro c
      rw [← List.mem_toFinset, hfam, List.mem_toFinset]
    ext s
    simp only [List.mem_toFinset, List.mem_map]
    constructor
    · rintro ⟨c, hc, rfl⟩
      exact ⟨c, (hmm c).mp hc, rfl⟩
    · rintro ⟨c, hc, rfl⟩
      exact ⟨c, (hmm c).mpr hc, rfl⟩
  · unfold singletonSets
    exact List.toFinset_eq_of_perm _ _ ((hperm.filter _).map _)

/-! ### Singleton completeness and cluster lookup -/

theorem countP_eq_one_of_nodup (l : List String) (hl : l.Nodup) (x : String)
    (hx : x ∈ l) : l.countP (fun u => decide (x = u)) = 1 := by
  induction l with
  | nil => simp at hx
  | cons u l ih =>
    rw [List.countP_cons]
    rcases List.mem_cons.mp hx with rfl | hx2
    · have : l.countP (fun u => decide (x = u)) = 0 := by
        rw [List.countP_eq_zero]
        intro a ha hxa
        rw [decide_eq_true_eq] at hxa
        subst hxa
        exact (List.nodup_cons.mp hl).1 ha
      simp [this]
    · have hxu : ¬(x = u) := by
        intro hequ
        subst hequ
        exact (List.nodup_cons.mp hl).1 hx2
      rw [ih (List.nodup_cons.mp hl).2 hx2]
      simp [hxu]

/-- A universe record with no surviving edge lies in exactly one derived
cluster. -/
theorem deriveClusters_countP_isolated (st : BuildState) (uni : List String)
    (hi : BuildInv st) (hu : uni.Nodup) (x : String) (hx : x ∈ uni)
    (hnx : x ∉ st.nodes) :
    (deriveClusters st uni).countP (fun c => decide (x ∈ c.members)) = 1 := by
  have hb := adjOf_lt st hi
  have hsym := adjOf_symm st
  have hmap : (deriveClusters st uni).countP (fun c => decide (x ∈ c.members)) =
      ((deriveClusters st uni).map (fun c => c.members)).countP
        (fun s => decide (x ∈ s)) := by
    rw [List.countP_map]
    rfl
  rw [hmap, deriveClusters, deriveClustersWith_members, List.countP_append]
  have hcomp : (componentSetsWith st (adjOf st)
      (List.range st.nodes.length)).countP (fun s => decide (x ∈ s)) = 0 := by
    rw [List.countP_eq_zero]
    intro s hsm hxs
    rw [decide_eq_true_eq] at hxs
    exact hnx (componentSetsWith_subset_nodes st (adjOf st) _ hb hsym s hsm x hxs)
  have hsingl : (singletonSets st uni).countP (fun s => decide (x ∈ s)) = 1 := by
    unfold singletonSets
    rw [List.countP_map]
    have hcongr : (uni.filter (fun u => !(st.nodes.contains u))).countP
          ((fun s => decide (x ∈ s)) ∘ fun u => ({u} : Finset String)) =
        (uni.filter (fun u => !(st.nodes.contains u))).countP
          (fun u => decide (x = u)) := by
      apply List.countP_congr
      intro u hum
      simp [Finset.mem_singleton]
    rw [hcongr]
    apply countP_eq_one_of_nodup _ (hu.filter _) x
    rw [List.mem_filter, not_contains_iff]
    exact ⟨hx, hnx⟩
  rw [hcomp, hsingl]

/-- Any cluster containing a record with no surviving edge is that
record's own singleton. -/
theorem deriveClusters_isolated_members (st : BuildState) (uni : List String)
    (hi : BuildInv st) (x : String) (hnx : x ∉ st.nodes) :
    ∀ c ∈ deriveClusters st uni, x ∈ c.members → c.members = {x} := by
  have hb := adjOf_lt st hi
  have hsym := adjOf_symm st
  intro c hc hxc
  have hmem : c.members ∈ (deriveClusters st uni).map (fun c => c.members) :=
    List.mem_map_of_mem _ hc
  rw [deriveClusters, deriveClustersWith_members, List.mem_append] at hmem
  rcases hmem with hmem | hmem
  · exact absurd
      (componentSetsWith_subset_nodes st (adjOf st) _ hb hsym _ hmem x hxc)
      hnx
  · obtain ⟨u, -, hus⟩ := List.mem_map.mp hmem
    rw [← hus] at hxc ⊢
    rw [Finset.mem_singleton] at hxc
    subst hxc
    rfl

/-- Every interned node name resolves to a cluster identifier. -/
theorem nodeToClusterId_isSome (st : BuildState) (uni : List String)
    (hi : BuildInv st) (x : String) (hx : x ∈ st.nodes) :
    (nodeToClusterId (deriveClusters st uni) x).isSome := by
  have hb := adjOf_lt st hi
  have hsym := adjOf_symm st
  have hspec := componentsFrom_spec (adjOf st) st.nodes.length hb hsym
    (List.range st.nodes.length) ∅ (by intro a ha; simp at ha)
  obtain ⟨i, hilt, hieq⟩ := List.mem_iff_getElem.mp hx
  obtain ⟨c, hcm, hic⟩ := hspec.covers i (List.mem_range.mpr hilt) hilt
    (Finset.not_mem_empty i)
  have hset : c.image (fun i => st.nodes.getD i "") ∈
      (deriveClusters st uni).map (fun c => c.members) := by
    rw [deriveClusters, deriveClustersWith_members, List.mem_append]
    exact Or.inl (List.mem_map.mpr ⟨c, hcm, rfl⟩)
  obtain ⟨rec, hrec, hrecm⟩ := List.mem_map.mp hset
  unfold nodeToClusterId
  rw [Option.isSome_map']
  rw [List.find?_isSome]
  refine ⟨rec, hrec, ?_⟩
  rw [decide_eq_true_eq, hrecm]
  refine Finset.mem_image.mpr ⟨i, hic, ?_⟩
  rw [List.getD_eq_getElem?_getD, List.getElem?_eq_getElem hilt,
    Option.getD_some]
  exact hieq

/-- A kept edge's endpoints always land in one common derived cluster. -/
theorem endpoints_same_cluster (eos : String)
    (es : List RawEdgeVisualization) (uni : List String)
    (e : RawEdgeVisualization) (he : e ∈ es) (hk : keepEdge eos e = true) :
    ∃ c ∈ deriveClusters (buildGraph eos es) uni,
      getId1 eos e ∈ c.members ∧ getId2 eos e ∈ c.members := by
  set st := buildGraph eos es with hst
  have hi : BuildInv st := buildGraph_inv eos es
  have hb := adjOf_lt st hi
  have hsym := adjOf_symm st
  have hspec := componentsFrom_spec (adjOf st) st.nodes.length hb hsym
    (List.range st.nodes.length) ∅ (by intro a ha; simp at ha)
  -- locate the graph edge recorded for `e`
  have hpair : (getId1 eos e, getId2 eos e) ∈
      st.edges.map (edgeNamePair st) := by
    rw [hst, buildGraph_edge_names]
    exact List.mem_map.mpr ⟨e, List.mem_filter.mpr ⟨he, hk⟩, rfl⟩
  obtain ⟨ge, hge, hgeq⟩ := List.mem_map.mp hpair
  have hsrc : st.nodes.getD ge.src "" = getId1 eos e :=
    congrArg Prod.fst hgeq
  have hdst : st.nodes.getD ge.dst "" = getId2 eos e :=
    congrArg Prod.snd hgeq
  have hslt := hi.src_lt ge hge
  have hdlt := hi.dst_lt ge hge
  have hadj : ge.dst ∈ adjOf st ge.src := by
    rw [adjOf, neighborsIn_mem]
    exact ⟨ge, hge, Or.inl ⟨rfl, rfl⟩⟩
  obtain ⟨c, hcm, hcsrc⟩ := hspec.covers ge.src (List.mem_range.mpr hslt)
    hslt (Finset.not_mem_empty _)
  obtain ⟨r, -, -, hrc⟩ := hspec.roots c hcm
  have hcdst : ge.dst ∈ c := by
    rw [hrc]
    exact Relation.ReflTransGen.tail ((hrc ge.src).mp hcsrc) hadj
  have hset : c.image (fun i => st.nodes.getD i "") ∈
      (deriveClusters st uni).map (fun c => c.members) := by
    rw [deriveClusters, deriveClustersWith_members, List.mem_append]
    exact Or.inl (List.mem_map.mpr ⟨c, hcm, rfl⟩)
  obtain ⟨rec, hrec, hrecm⟩ := List.mem_map.mp hset
  refine ⟨rec, hrec, ?_, ?_⟩
  · rw [hrecm]
    exact Finset.mem_image.mpr ⟨ge.src, hcsrc, hsrc⟩
  · rw [hrecm]
    exact Finset.mem_image.mpr ⟨ge.dst, hcdst, hdst⟩

/-! ### Pairwise group materialization -/

theorem pairsOf_length {α : Type} (l : List α) :
    2 * (pairsOf l).length = l.length * (l.length - 1) := by
  induction l with
  | nil => simp [pairsOf]
  | cons x xs ih =>
    rw [pairsOf, List.length_append, List.length_map, List.length_cons,
      Nat.mul_add, ih]
    cases hn : xs.length with
    | zero => simp
    | succ k =>
      simp only [Nat.succ_sub_one]
      ring

theorem pairsOf_mem {α : Type} (l : List α) (p : α × α)
    (hp : p ∈ pairsOf l) : p.1 ∈ l ∧ p.2 ∈ l := by
  induction l with
  | nil => simp [pairsOf] at hp
  | cons x xs ih =>
    rw [pairsOf, List.mem_append] at hp
    rcases hp with hp | hp
    · obtain ⟨y, hy, rfl⟩ := List.mem_map.mp hp
      exact ⟨List.mem_cons_self _ _, List.mem_cons_of_mem _ hy⟩
    · obtain ⟨h1, h2⟩ := ih hp
      exact ⟨List.mem_cons_of_mem _ h1, List.mem_cons_of_mem _ h2⟩

theorem pairsOf_countP (l : List String) (hl : l.Nodup) (a b : String)
    (ha : a ∈ l) (hb : b ∈ l) (hab : a ≠ b) :
    (pairsOf l).countP
      (fun p => decide ((p.1 = a ∧ p.2 = b) ∨ (p.1 = b ∧ p.2 = a))) = 1 := by
  induction l with
  | nil => simp at ha
  | cons x xs ih =>
    obtain ⟨hxn, hxs⟩ := List.nodup_cons.mp hl
    rw [pairsOf, List.countP_append, List.countP_map]
    by_cases hxa : x = a
    · subst hxa
      have hbx : b ∈ xs := by
        rcases List.mem_cons.mp hb with rfl | hb2
        · exact absurd rfl hab.symm
        · exact hb2
      have hhead : xs.countP ((fun p => decide ((p.1 = x ∧ p.2 = b) ∨
          (p.1 = b ∧ p.2 = x))) ∘ fun y => (x, y)) =
          xs.countP (fun y => decide (b = y)) := by
        apply List.countP_congr
        intro y hy
        simp only [Function.comp_apply, decide_eq_true_eq]
        constructor
        · intro hor
          rcases hor with ⟨-, hyb⟩ | ⟨hxb, -⟩
          · exact hyb.symm
          · exact absurd hxb hab
        · intro hby
          subst hby
          simp
      have htail : (pairsOf xs).countP
          (fun p => decide ((p.1 = x ∧ p.2 = b) ∨ (p.1 = b ∧ p.2 = x))) = 0 := by
        rw [List.countP_eq_zero]
        intro p hp hpred
        rw [decide_eq_true_eq] at hpred
        obtain ⟨h1, h2⟩ := pairsOf_mem xs p hp
        rcases hpred with ⟨hpx, -⟩ | ⟨-, hpx⟩
        · exact hxn (hpx ▸ h1)
        · exact hxn (hpx ▸ h2)
      rw [hhead, htail, countP_eq_one_of_nodup xs hxs b hbx]
    · by_cases hxb : x = b
      · subst hxb
        have hax : a ∈ xs := by
          rcases List.mem_cons.mp ha with rfl | ha2
          · exact absurd rfl hxa
          · exact ha2
        have hhead : xs.countP ((fun p => decide ((p.1 = a ∧ p.2 = x) ∨
            (p.1 = x ∧ p.2 = a))) ∘ fun y => (x, y)) =
            xs.countP (fun y => decide (a = y)) := by
          apply List.countP_congr
          intro y hy
          simp only [Function.comp_apply, decide_eq_true_eq]
          constructor
          · intro hor
            rcases hor with ⟨hxa2, -⟩ | ⟨-, hya⟩
            · exact absurd hxa2 hxa
            · exact hya.symm
          · intro hay
            subst hay
            simp
        have htail : (pairsOf xs).countP
            (fun p => decide ((p.1 = a ∧ p.2 = x) ∨ (p.1 = x ∧ p.2 = a))) = 0 := by
          rw [List.countP_eq_zero]
          intro p hp hpred
          rw [decide_eq_true_eq] at hpred
          obtain ⟨h1, h2⟩ := pairsOf_mem xs p hp
          rcases hpred with ⟨-, hpx⟩ | ⟨hpx, -⟩
          · exact hxn (hpx ▸ h2)
          · exact hxn (hpx ▸ h1)
        rw [hhead, htail, countP_eq_one_of_nodup xs hxs a hax]
      · have hax : a ∈ xs := by
          rcases List.mem_cons.mp ha with rfl | ha2
          · exact absurd rfl hxa
          · exact ha2
        have hbx : b ∈ xs := by
          rcases List.mem_cons.mp hb with rfl | hb2
          · exact absurd rfl hxb
          · exact hb2
        have hhead : xs.countP ((fun p => decide ((p.1 = a ∧ p.2 = b) ∨
            (p.1 = b ∧ p.2 = a))) ∘ fun y => (x, y)) = 0 := by
          rw [List.countP_eq_zero]
          intro y hy hpred
          simp only [Function.comp_apply, decide_eq_true_eq] at hpred
          rcases hpred with ⟨hax2, -⟩ | ⟨hbx2, -⟩
          · exact hxa hax2
          · exact hxb hbx2
        rw [hhead, ih hxs hax hbx]

theorem countP_map_eq {α β : Type} (f : α → β) (q : β → Bool)
    (p : α → Bool) (l : List α) (h : ∀ a ∈ l, q (f a) = p a) :
    (l.map f).countP q = l.countP p := by
  rw [List.countP_map]
  apply List.countP_congr
  intro a ha
  rw [Function.comp_apply, h a ha]

/-- Every row a cluster's block carries that cluster's identifier. -/
theorem groupRowsOfCluster_cid (c : ClusterRec) :
    ∀ r ∈ groupRowsOfCluster c, r.group_cluster_id = c.cid := by
  intro r hr
  unfold groupRowsOfCluster at hr
  split at hr
  · rw [List.mem_singleton] at hr
    subst hr
    rfl
  · obtain ⟨p, -, rfl⟩ := List.mem_map.mp hr
    rfl

theorem groupRows_cons (c : ClusterRec) (cs : List ClusterRec) :
    groupRows (c :: cs) = groupRowsOfCluster c ++ groupRows cs := rfl

theorem groupRows_cid_mem (cs : List ClusterRec) :
    ∀ r ∈ groupRows cs, r.group_cluster_id ∈ cs.map (fun c => c.cid) := by
  induction cs with
  | nil => simp [groupRows]
  | cons c cs ih =>
    intro r hr
    rw [groupRows_cons, List.mem_append] at hr
    rcases hr with hr | hr
    · rw [List.map_cons, List.mem_cons]
      exact Or.inl (groupRowsOfCluster_cid c r hr)
    · rw [List.map_cons, List.mem_cons]
      exact Or.inr (ih r hr)

/-- With distinct cluster identifiers, filtering the group batch by one
cluster's identifier recovers exactly that cluster's block. -/
theorem groupRows_filter_cid (cs : List ClusterRec)
    (hnd : (cs.map (fun c => c.cid)).Nodup) (c : ClusterRec) (hc : c ∈ cs) :
    (groupRows cs).filter (fun r => decide (r.group_cluster_id = c.cid)) =
      groupRowsOfCluster c := by
  induction cs with
  | nil => simp at hc
  | cons d ds ih =>
    rw [List.map_cons, List.nodup_cons] at hnd
    rw [groupRows_cons, List.filter_append]
    rcases List.mem_cons.mp hc with rfl | hc2
    · have hblock : (groupRowsOfCluster c).filter
          (fun r => decide (r.group_cluster_id = c.cid)) =
          groupRowsOfCluster c := by
        rw [List.filter_eq_self]
        intro r hr
        rw [decide_eq_true_eq]
        exact groupRowsOfCluster_cid c r hr
      have hrest : (groupRows ds).filter
          (fun r => decide (r.group_cluster_id = c.cid)) = [] := by
        rw [List.filter_eq_nil_iff]
        intro r hr hpred
        rw [decide_eq_true_eq] at hpred
        exact hnd.1 (hpred ▸ groupRows_cid_mem ds r hr)
      rw [hblock, hrest, List.append_nil]
    · have hblock : (groupRowsOfCluster d).filter
          (fun r => decide (r.group_cluster_id = c.cid)) = [] := by
        rw [List.filter_eq_nil_iff]
        intro r hr hpred
        rw [decide_eq_true_eq] at hpred
        have : d.cid = c.cid := (groupRowsOfCluster_cid d r hr) ▸ hpred
        apply hnd.1
        rw [this]
        exact List.mem_map_of_mem _ hc2
      rw [hblock, List.nil_append]
      exact ih hnd.2 hc2

/-! ### Edge-row resolution -/

theorem buildEdgeRows_ok (cs : List ClusterRec) (viz : List VizTuple)
    (h : ∀ t ∈ viz, (nodeToClusterId cs t.1).isSome) :
    ∃ rows, buildEdgeRows cs viz = .ok rows := by
  induction viz with
  | nil => exact ⟨[], rfl⟩
  | cons t rest ih =>
    obtain ⟨id1, id2, w, d, status⟩ := t
    obtain ⟨cid, hcid⟩ := Option.isSome_iff_exists.mp
      (h (id1, id2, w, d, status) (List.mem_cons_self _ _))
    obtain ⟨rows, hrows⟩ := ih (fun t ht => h t (List.mem_cons_of_mem _ ht))
    rw [buildEdgeRows]
    rw [show (nodeToClusterId cs id1).orElse
        (fun _ => nodeToClusterId cs id2) = some cid by
      rw [hcid]; rfl]
    rw [hrows]
    exact ⟨_, rfl⟩

theorem buildEdgeRows_forall₂ (cs : List ClusterRec) (viz : List VizTuple)
    (rows : List EdgeRow) (h : buildEdgeRows cs viz = .ok rows) :
    List.Forall₂
      (fun (t : VizTuple) (r : EdgeRow) =>
        r.id1 = t.1 ∧ r.id2 = t.2.1 ∧ r.edge_weight = t.2.2.1 ∧
        r.details = t.2.2.2.1 ∧ r.confirmed_status = t.2.2.2.2 ∧
        (nodeToClusterId cs t.1).orElse (fun _ => nodeToClusterId cs t.2.1) =
          some r.cluster_id)
      viz rows := by
  induction viz generalizing rows with
  | nil =>
    rw [buildEdgeRows] at h
    cases h
    exact List.Forall₂.nil
  | cons t rest ih =>
    obtain ⟨id1, id2, w, d, status⟩ := t
    rw [buildEdgeRows] at h
    cases hres : (nodeToClusterId cs id1).orElse
        (fun _ => nodeToClusterId cs id2) with
    | none => rw [hres] at h; cases h
    | some cid =>
      rw [hres] at h
      cases hrec : buildEdgeRows cs rest with
      | error e => rw [hrec] at h; cases h
      | ok rs =>
        rw [hrec] at h
        cases h
        exact List.Forall₂.cons ⟨rfl, rfl, rfl, rfl, rfl, hres⟩ (ih rs hrec)

/-! ### Transaction atomicity -/

theorem txBody_ok (inj : DbStep → Bool) (eos : String)
    (cs : List ClusterRec) (viz : List VizTuple) (pending : ExportDb)
    (h : txBody inj eos cs viz = .ok pending) :
    ∃ rows, buildEdgeRows cs viz = .ok rows ∧
      pending = { clusterTable := clusterRowsOf eos cs,
                  groupTable := groupRows cs, edgeTable := rows } := by
  unfold txBody at h
  by_cases h1 : inj .deleteClusters = true
  · rw [if_pos h1] at h; cases h
  rw [if_neg h1] at h
  by_cases h2 : inj .deleteGroups = true
  · rw [if_pos h2] at h; cases h
  rw [if_neg h2] at h
  by_cases h3 : inj .deleteEdges = true
  · rw [if_pos h3] at h; cases h
  rw [if_neg h3] at h
  by_cases h4 : ¬(clusterRowsOf eos cs).isEmpty ∧ inj .insertClusters = true
  · rw [if_pos h4] at h; cases h
  rw [if_neg h4] at h
  by_cases h5 : ¬(groupRows cs).isEmpty ∧ inj .insertGroups = true
  · rw [if_pos h5] at h; cases h
  rw [if_neg h5] at h
  cases hres : buildEdgeRows cs viz with
  | error e => rw [hres] at h; cases h
  | ok eRows =>
    rw [hres] at h
    dsimp only at h
    by_cases h6 : ¬eRows.isEmpty ∧ inj .insertEdges = true
    · rw [if_pos h6] at h; cases h
    rw [if_neg h6] at h
    by_cases h7 : inj .commitStep = true
    · rw [if_pos h7] at h; cases h
    rw [if_neg h7] at h
    cases h
    exact ⟨eRows, rfl, rfl⟩

/-- The snapshot write either fails leaving the tables untouched, or
commits exactly the freshly derived snapshot. -/
theorem runSnapshotTx_spec (inj : DbStep → Bool) (eos : String)
    (cs : List ClusterRec) (viz : List VizTuple) (db : ExportDb) :
    ((runSnapshotTx inj eos cs viz db).2 ≠ none →
      (runSnapshotTx inj eos cs viz db).1 = db) ∧
    ((runSnapshotTx inj eos cs viz db).2 = none →
      ∃ rows, buildEdgeRows cs viz = .ok rows ∧
        (runSnapshotTx inj eos cs viz db).1 =
          { clusterTable := clusterRowsOf eos cs,
            groupTable := groupRows cs, edgeTable := rows }) := by
  unfold runSnapshotTx
  cases htx : txBody inj eos cs viz with
  | ok pending =>
    refine ⟨fun hne => absurd rfl hne, fun _ => ?_⟩
    obtain ⟨rows, hrows, hpend⟩ := txBody_ok inj eos cs viz pending htx
    exact ⟨rows, hrows, hpend⟩
  | error e =>
    exact ⟨fun _ => rfl, fun heq => absurd heq (by simp)⟩

/-! ## The claimed properties -/

/-- Claim C1, as stated, is false: the derived clusters need not equal the
filtered universe, because graph nodes come from edge endpoints that are
never checked against the universe.  Concretely, with universe `[]` and a
single confirmed edge `B — C`, the derived member sets union to
`{B, C} ≠ ∅`. -/
theorem c1_claim_counterexample :
    memberUnion
        ((deriveClusters
            (buildGraph "entity"
              [{ id := "e1", entity_id_1 := some "B", entity_id_2 := some "C",
                 service_id_1 := none, service_id_2 := none,
                 confirmed_status := some "CONFIRMED_MATCH",
                 details := none }])
            []).map (fun c => c.members)) ≠
      ([] : List String).toFinset := by
  have hst : buildGraph "entity"
      [{ id := "e1", entity_id_1 := some "B", entity_id_2 := some "C",
         service_id_1 := none, service_id_2 := none,
         confirmed_status := some "CONFIRMED_MATCH", details := none }] =
      { nodes := ["B", "C"],
        edges := [⟨0, 1, mkPayload (synthDetails 1) 1⟩],
        viz := [("B", "C", 1, synthDetails 1, "CONFIRMED_MATCH")] } := by
    decide
  rw [hst]
  simp [deriveClusters, deriveClustersWith, componentSetsWith,
    componentsFrom, dfsAux, adjOf, neighborsIn, singletonSets]
  decide

/-- Claim C1 (amended): the derived member sets always union to the
universe together with all interned valid-edge endpoints (the graph's
node names); for a duplicate-free universe list they are pairwise
disjoint; and whenever every interned endpoint also lies in the universe,
the union collapses to exactly the universe, i.e. the clusters partition
it. -/
theorem c1_partition (eos : String) (es : List RawEdgeVisualization)
    (uni : List String) :
    memberUnion
        ((deriveClusters (buildGraph eos es) uni).map (fun c => c.members)) =
      (buildGraph eos es).nodes.toFinset ∪ uni.toFinset ∧
    (uni.Nodup →
      List.Pairwise (fun a b => Disjoint a b)
        ((deriveClusters (buildGraph eos es) uni).map (fun c => c.members))) ∧
    ((∀ x ∈ (buildGraph eos es).nodes, x ∈ uni) →
      memberUnion
          ((deriveClusters (buildGraph eos es) uni).map
            (fun c => c.members)) =
        uni.toFinset) := by
  refine ⟨deriveClusters_union _ _ (buildGraph_inv eos es), ?_, ?_⟩
  · intro hu
    exact deriveClusters_disjoint _ _ (buildGraph_inv eos es) hu
  · intro hsub
    rw [deriveClusters_union _ _ (buildGraph_inv eos es)]
    rw [Finset.union_eq_right]
    intro x hx
    rw [List.mem_toFinset] at hx ⊢
    exact hsub x hx

/-- Witness for C1 at a concrete input (empty edge set, universe `[A]`),
discharging both conditional clauses' hypotheses. -/
theorem c1_partition_witness :
    (["A"].Nodup ∧ ∀ x ∈ (buildGraph "entity" []).nodes, x ∈ ["A"]) ∧
    memberUnion
        ((deriveClusters (buildGraph "entity" []) ["A"]).map
          (fun c => c.members)) =
      (buildGraph "entity" []).nodes.toFinset ∪ ["A"].toFinset ∧
    List.Pairwise (fun a b => Disjoint a b)
      ((deriveClusters (buildGraph "entity" []) ["A"]).map
        (fun c => c.members)) ∧
    memberUnion
        ((deriveClusters (buildGraph "entity" []) ["A"]).map
          (fun c => c.members)) = ["A"].toFinset :=
  ⟨⟨by decide, by decide⟩,
    (c1_partition "entity" [] ["A"]).1,
    (c1_partition "entity" [] ["A"]).2.1 (by decide),
    (c1_partition "entity" [] ["A"]).2.2 (by decide)⟩

/-- Claim C2, as stated, is false in one direction: an edge whose selected
endpoint ID is empty is skipped even though its status is
`PENDING_REVIEW`, so "added iff status is PENDING_REVIEW or
CONFIRMED_MATCH" fails on it. -/
theorem c2_claim_counterexample :
    effectiveStatus
        { id := "e1", entity_id_1 := some "", entity_id_2 := some "x",
          service_id_1 := none, service_id_2 := none,
          confirmed_status := some "PENDING_REVIEW", details := none } =
      "PENDING_REVIEW" ∧
    (buildGraph "entity"
        [{ id := "e1", entity_id_1 := some "", entity_id_2 := some "x",
           service_id_1 := none, service_id_2 := none,
           confirmed_status := some "PENDING_REVIEW",
           details := none }]).edges = [] := by
  decide

/-- Claim C2 (amended): an edge is added to the graph iff both its
selected endpoint IDs are nonempty and its effective status is
`PENDING_REVIEW` or `CONFIRMED_MATCH` (`keepEdge`); dropping all
status-invalid edges before the build changes nothing, and in particular
dropping a `CONFIRMED_NON_MATCH` edge from the input is equivalent to
never adding it: the entire build state — hence the derived connectivity —
is identical. -/
theorem c2_edge_filter :
    (∀ (eos : String) (st : BuildState) (e : RawEdgeVisualization),
        (processEdge eos st e).edges.length =
          st.edges.length + (if keepEdge eos e then 1 else 0)) ∧
    (∀ (eos : String) (es : List RawEdgeVisualization),
        buildGraph eos es =
          buildGraph eos
            (es.filter (fun e => isValidConnection (effectiveStatus e)))) ∧
    (∀ (eos : String) (l1 l2 : List RawEdgeVisualization)
        (e : RawEdgeVisualization),
        effectiveStatus e = "CONFIRMED_NON_MATCH" →
          buildGraph eos (l1 ++ e :: l2) = buildGraph eos (l1 ++ l2)) :=
  ⟨processEdge_edges_length, buildGraph_filter_valid,
    fun eos l1 l2 e h =>
      buildGraph_drop_invalid eos l1 l2 e (by rw [h]; decide)⟩

/-- Witness for C2 at concrete inputs: a kept pending edge adds exactly
one graph edge, and dropping a concrete non-match edge is a no-op. -/
theorem c2_edge_filter_witness :
    ((processEdge "entity" ⟨[], [], []⟩
        { id := "e1", entity_id_1 := some "a", entity_id_2 := some "b",
          service_id_1 := none, service_id_2 := none,
          confirmed_status := some "PENDING_REVIEW",
          details := none }).edges.length =
      ([] : List GraphEdge).length +
        (if keepEdge "entity"
            { id := "e1", entity_id_1 := some "a", entity_id_2 := some "b",
              service_id_1 := none, service_id_2 := none,
              confirmed_status := some "PENDING_REVIEW", details := none }
          then 1 else 0)) ∧
    (effectiveStatus
        { id := "e2", entity_id_1 := some "a", entity_id_2 := some "b",
          service_id_1 := none, service_id_2 := none,
          confirmed_status := some "CONFIRMED_NON_MATCH", details := none } =
      "CONFIRMED_NON_MATCH") ∧
    buildGraph "entity"
        ([] ++ { id := "e2", entity_id_1 := some "a",
                 entity_id_2 := some "b", service_id_1 := none,
                 service_id_2 := none,
                 confirmed_status := some "CONFIRMED_NON_MATCH",
                 details := none } :: []) =
      buildGraph "entity" ([] ++ []) :=
  ⟨c2_edge_filter.1 "entity" ⟨[], [], []⟩ _, by decide,
    c2_edge_filter.2.2 "entity" [] []
      { id := "e2", entity_id_1 := some "a", entity_id_2 := some "b",
        service_id_1 := none, service_id_2 := none,
        confirmed_status := some "CONFIRMED_NON_MATCH", details := none }
      (by decide)⟩

/-- Claim C3: the snapshot write is atomic.  Whatever statement fails —
any of the three deletes, any of the three bulk inserts, the integrity
error while resolving an edge's cluster, or the commit — the transaction
rolls back and the three export tables are exactly as before; on success
they hold exactly the freshly derived snapshot. -/
theorem c3_snapshot_atomic (inj : DbStep → Bool) (eos : String)
    (cs : List ClusterRec) (viz : List VizTuple) (db : ExportDb) :
    ((runSnapshotTx inj eos cs viz db).2 ≠ none →
      (runSnapshotTx inj eos cs viz db).1 = db) ∧
    ((runSnapshotTx inj eos cs viz db).2 = none →
      ∃ rows, buildEdgeRows cs viz = .ok rows ∧
        (runSnapshotTx inj eos cs viz db).1 =
          { clusterTable := clusterRowsOf eos cs,
            groupTable := groupRows cs, edgeTable := rows }) :=
  runSnapshotTx_spec inj eos cs viz db

/-- Witness for C3 at concrete inputs: with no injected failure the empty
snapshot commits; with every statement failing the database is
unchanged. -/
theorem c3_snapshot_atomic_witness :
    ((runSnapshotTx (fun _ => false) "entity" [] [] ⟨[], [], []⟩).2 = none ∧
      ∃ rows, buildEdgeRows [] [] = .ok rows ∧
        (runSnapshotTx (fun _ => false) "entity" [] [] ⟨[], [], []⟩).1 =
          { clusterTable := clusterRowsOf "entity" [],
            groupTable := groupRows [], edgeTable := rows }) ∧
    ((runSnapshotTx (fun _ => true) "entity" [] []
        ⟨[{ cid := 7, name := "x", description := "y", entity_count := 1,
            group_count := 0, average_coherence_score := 4 / 5,
            was_reviewed := true }], [], []⟩).2 ≠ none ∧
      (runSnapshotTx (fun _ => true) "entity" [] []
        ⟨[{ cid := 7, name := "x", description := "y", entity_count := 1,
            group_count := 0, average_coherence_score := 4 / 5,
            was_reviewed := true }], [], []⟩).1 =
        ⟨[{ cid := 7, name := "x", description := "y", entity_count := 1,
            group_count := 0, average_coherence_score := 4 / 5,
            was_reviewed := true }], [], []⟩) :=
  ⟨⟨by decide,
    (c3_snapshot_atomic (fun _ => false) "entity" [] [] ⟨[], [], []⟩).2
      (by decide)⟩,
   ⟨by decide,
    (c3_snapshot_atomic (fun _ => true) "entity" [] [] _).1 (by decide)⟩⟩

/-- Claim C4: group materialization is fully pairwise.  For a derived
cluster of size `n > 1`, the group batch holds exactly `n(n-1)/2`
`USER_REVIEW_CONNECTED` rows under that cluster's identifier — exactly one
for each unordered pair of distinct members — and for a cluster of size 1
exactly one self-referencing `USER_REVIEW_ISOLATED` row. -/
theorem c4_group_pairwise (eos : String) (es : List RawEdgeVisualization)
    (uni : List String) (c : ClusterRec)
    (hc : c ∈ deriveClusters (buildGraph eos es) uni) :
    (1 < c.members.card →
      (groupRows (deriveClusters (buildGraph eos es) uni)).countP
          (fun r => decide (r.group_cluster_id = c.cid ∧
            r.method_type = "USER_REVIEW_CONNECTED")) =
        c.members.card * (c.members.card - 1) / 2 ∧
      ∀ a b : String, a ∈ c.members → b ∈ c.members → a ≠ b →
        (groupRows (deriveClusters (buildGraph eos es) uni)).countP
            (fun r => decide (r.group_cluster_id = c.cid ∧
              ((r.id1 = a ∧ r.id2 = b) ∨ (r.id1 = b ∧ r.id2 = a)))) = 1) ∧
    (c.members.card = 1 →
      ∃ m, c.members = {m} ∧
        (groupRows (deriveClusters (buildGraph eos es) uni)).filter
            (fun r => decide (r.group_cluster_id = c.cid)) =
          [{ id1 := m, id2 := m, group_cluster_id := c.cid,
             method_type := "USER_REVIEW_ISOLATED" }]) := by
  have hnd := deriveClusters_cid_nodup (buildGraph eos es) uni
  have hfilter := groupRows_filter_cid _ hnd c hc
  have hsortlen : (c.members.sort (· ≤ ·)).length = c.members.card :=
    Finset.length_sort _
  have hkey : ∀ (q : GroupRow → Bool),
      (groupRows (deriveClusters (buildGraph eos es) uni)).countP
          (fun r => decide (r.group_cluster_id = c.cid) && q r) =
        (groupRowsOfCluster c).countP q := by
    intro q
    rw [← hfilter, List.countP_filter]
    apply List.countP_congr
    intro r hr
    rw [Bool.and_comm]
  constructor
  · intro hcard
    have hne : ¬(c.members.sort (· ≤ ·)).length = 1 := by omega
    constructor
    · have hcnt : (groupRows (deriveClusters (buildGraph eos es) uni)).countP
          (fun r => decide (r.group_cluster_id = c.cid ∧
            r.method_type = "USER_REVIEW_CONNECTED")) =
          (groupRowsOfCluster c).countP
            (fun r => decide (r.method_type = "USER_REVIEW_CONNECTED")) := by
        rw [← hkey]
        apply List.countP_congr
        intro r hr
        simp
      rw [hcnt]
      unfold groupRowsOfCluster
      rw [if_neg hne]
      rw [countP_map_eq _ _ (fun _ => true) _ (fun p hp => by rfl)]
      rw [List.countP_true]
      have hdouble := pairsOf_length (c.members.sort (· ≤ ·))
      rw [hsortlen] at hdouble
      omega
    · intro a b ha hb hab
      have hcnt : (groupRows (deriveClusters (buildGraph eos es) uni)).countP
          (fun r => decide (r.group_cluster_id = c.cid ∧
            ((r.id1 = a ∧ r.id2 = b) ∨ (r.id1 = b ∧ r.id2 = a)))) =
          (groupRowsOfCluster c).countP
            (fun r => decide ((r.id1 = a ∧ r.id2 = b) ∨
              (r.id1 = b ∧ r.id2 = a))) := by
        rw [← hkey]
        apply List.countP_congr
        intro r hr
        simp
      rw [hcnt]
      unfold groupRowsOfCluster
      rw [if_neg hne]
      rw [countP_map_eq _ _
        (fun p => decide ((p.1 = a ∧ p.2 = b) ∨ (p.1 = b ∧ p.2 = a))) _
        (fun p hp => by rfl)]
      exact pairsOf_countP _ (Finset.sort_nodup _ _) a b
        ((Finset.mem_sort _).mpr ha) ((Finset.mem_sort _).mpr hb) hab
  · intro hcard
    obtain ⟨m, hm⟩ := Finset.card_eq_one.mp hcard
    refine ⟨m, hm, ?_⟩
    rw [hfilter]
    unfold groupRowsOfCluster
    rw [hm, Finset.sort_singleton]
    rfl

/-- Witness for C4 at a concrete input: the singleton cluster derived for
universe `[A]` with no edges yields exactly its self-referencing
`USER_REVIEW_ISOLATED` row. -/
theorem c4_group_pairwise_witness :
    ((⟨0, {"A"}⟩ : ClusterRec) ∈
        deriveClusters (buildGraph "entity" []) ["A"] ∧
      (⟨0, {"A"}⟩ : ClusterRec).members.card = 1) ∧
    ∃ m, (⟨0, {"A"}⟩ : ClusterRec).members = {m} ∧
      (groupRows (deriveClusters (buildGraph "entity" []) ["A"])).filter
          (fun r => decide (r.group_cluster_id =
            (⟨0, {"A"}⟩ : ClusterRec).cid)) =
        [{ id1 := m, id2 := m,
           group_cluster_id := (⟨0, {"A"}⟩ : ClusterRec).cid,
           method_type := "USER_REVIEW_ISOLATED" }] :=
  ⟨⟨by decide, by decide⟩,
    (c4_group_pairwise "entity" [] ["A"] ⟨0, {"A"}⟩ (by decide)).2
      (by decide)⟩

/-- Claim C5: every universe record touched by no valid edge (absent from
the node map) lies in exactly one derived cluster, and that cluster is its
own singleton. -/
theorem c5_singleton_completeness (eos : String)
    (es : List RawEdgeVisualization) (uni : List String) (hu : uni.Nodup)
    (x : String) (hx : x ∈ uni) (hnx : x ∉ (buildGraph eos es).nodes) :
    (deriveClusters (buildGraph eos es) uni).countP
        (fun c => decide (x ∈ c.members)) = 1 ∧
    ∀ c ∈ deriveClusters (buildGraph eos es) uni,
      x ∈ c.members → c.members = {x} :=
  ⟨deriveClusters_countP_isolated _ _ (buildGraph_inv eos es) hu x hx hnx,
   deriveClusters_isolated_members _ _ (buildGraph_inv eos es) x hnx⟩

/-- Witness for C5 at a concrete input. -/
theorem c5_singleton_completeness_witness :
    (["A"].Nodup ∧ "A" ∈ ["A"] ∧ "A" ∉ (buildGraph "entity" []).nodes) ∧
    ((deriveClusters (buildGraph "entity" []) ["A"]).countP
        (fun c => decide ("A" ∈ c.members)) = 1 ∧
      ∀ c ∈ deriveClusters (buildGraph "entity" []) ["A"],
        "A" ∈ c.members → c.members = {"A"}) :=
  ⟨⟨by decide, by decide, by decide⟩,
    c5_singleton_completeness "entity" [] ["A"] (by decide) "A" (by decide)
      (by decide)⟩

/-- Claim C6, as stated, is false: an edge whose status is not
`CONFIRMED_NON_MATCH` but whose selected endpoint ID is empty emits no
EdgeVisualization row at all. -/
theorem c6_claim_counterexample :
    effectiveStatus
        { id := "e1", entity_id_1 := some "y", entity_id_2 := some "",
          service_id_1 := none, service_id_2 := none,
          confirmed_status := some "PENDING_REVIEW", details := none } ≠
      "CONFIRMED_NON_MATCH" ∧
    (buildGraph "entity"
        [{ id := "e1", entity_id_1 := some "y", entity_id_2 := some "",
           service_id_1 := none, service_id_2 := none,
           confirmed_status := some "PENDING_REVIEW",
           details := none }]).viz = [] := by
  decide

/-- Claim C6 (amended): exactly one EdgeVisualization row is emitted per
kept edge (both endpoint IDs nonempty, effective status a valid
connection), in input order, carrying that edge's extracted weight,
details payload and effective status, plus the cluster identifier resolved
from its endpoints (first endpoint first, then the second). -/
theorem c6_edge_visualization (eos : String)
    (es : List RawEdgeVisualization) (uni : List String) :
    (buildGraph eos es).viz = (es.filter (keepEdge eos)).map (vizTuple eos) ∧
    ∃ rows,
      buildEdgeRows (deriveClusters (buildGraph eos es) uni)
          ((buildGraph eos es).viz) = .ok rows ∧
      List.Forall₂
        (fun (t : VizTuple) (r : EdgeRow) =>
          r.id1 = t.1 ∧ r.id2 = t.2.1 ∧ r.edge_weight = t.2.2.1 ∧
          r.details = t.2.2.2.1 ∧ r.confirmed_status = t.2.2.2.2 ∧
          (nodeToClusterId (deriveClusters (buildGraph eos es) uni)
              t.1).orElse
            (fun _ => nodeToClusterId
              (deriveClusters (buildGraph eos es) uni) t.2.1) =
            some r.cluster_id)
        ((buildGraph eos es).viz) rows := by
  refine ⟨buildGraph_viz eos es, ?_⟩
  have hok : ∀ t ∈ (buildGraph eos es).viz,
      (nodeToClusterId (deriveClusters (buildGraph eos es) uni) t.1).isSome := by
    intro t ht
    exact nodeToClusterId_isSome _ uni (buildGraph_inv eos es) t.1
      ((buildGraph_inv eos es).viz_mem₁ t ht)
  obtain ⟨rows, hrows⟩ := buildEdgeRows_ok _ _ hok
  exact ⟨rows, hrows, buildEdgeRows_forall₂ _ _ rows hrows⟩

/-- Claim C7, as stated, is false: `add_edge` is called once per kept
input edge, so two valid edges over the same pair produce two parallel
graph edges. -/
theorem c7_claim_counterexample :
    1 < parallelCount
        (buildGraph "entity"
          [{ id := "e1", entity_id_1 := some "A", entity_id_2 := some "B",
             service_id_1 := none, service_id_2 := none,
             confirmed_status := some "CONFIRMED_MATCH", details := none },
           { id := "e2", entity_id_1 := some "A", entity_id_2 := some "B",
             service_id_1 := none, service_id_2 := none,
             confirmed_status := some "PENDING_REVIEW", details := none }])
        "A" "B" := by
  decide

/-- Claim C7 (amended): the constructed graph is a multigraph, with
exactly one edge per kept input edge: for every unordered pair of record
IDs, the number of graph edges connecting the pair equals the number of
kept input edges over that pair. -/
theorem c7_parallel_edges (eos : String) (es : List RawEdgeVisualization)
    (x y : String) :
    parallelCount (buildGraph eos es) x y = inputPairCount eos es x y :=
  parallelCount_eq_inputPairCount eos es x y

/-- Claim C8: the integrity-error branch of the edge-visualization write
is unreachable.  Every collected visualization tuple's first endpoint is
interned in the graph, hence resolves in the node-to-cluster map, so the
whole edge-row build always succeeds. -/
theorem c8_resolution_total (eos : String) (es : List RawEdgeVisualization)
    (uni : List String) :
    (∀ t ∈ (buildGraph eos es).viz,
      (nodeToClusterId (deriveClusters (buildGraph eos es) uni)
        t.1).isSome) ∧
    ∃ rows,
      buildEdgeRows (deriveClusters (buildGraph eos es) uni)
        ((buildGraph eos es).viz) = .ok rows := by
  have hok : ∀ t ∈ (buildGraph eos es).viz,
      (nodeToClusterId (deriveClusters (buildGraph eos es) uni)
        t.1).isSome := by
    intro t ht
    exact nodeToClusterId_isSome _ uni (buildGraph_inv eos es) t.1
      ((buildGraph_inv eos es).viz_mem₁ t ht)
  exact ⟨hok, buildEdgeRows_ok _ _ hok⟩

/-- Claim C9: cluster membership is deterministic.  Whatever root order
the component loop uses, however the adjacency lists are presented
(any order or multiplicity, same neighbor relation), and in whatever
order the universe rows arrive, the family of member sets derived from
identical edge and universe inputs is the same. -/
theorem c9_membership_deterministic (eos : String)
    (es : List RawEdgeVisualization) (adj1 adj2 : Nat → List Nat)
    (o1 o2 : List Nat) (uni1 uni2 : List String)
    (hmem1 : ∀ i j, j ∈ adj1 i ↔ j ∈ adjOf (buildGraph eos es) i)
    (hmem2 : ∀ i j, j ∈ adj2 i ↔ j ∈ adjOf (buildGraph eos es) i)
    (ho1 : ∀ i, i < (buildGraph eos es).nodes.length → i ∈ o1)
    (ho2 : ∀ i, i < (buildGraph eos es).nodes.length → i ∈ o2)
    (hperm : uni1.Perm uni2) :
    ((deriveClustersWith (buildGraph eos es) adj1 o1 uni1).map
        (fun c => c.members)).toFinset =
      ((deriveClustersWith (buildGraph eos es) adj2 o2 uni2).map
        (fun c => c.members)).toFinset :=
  deriveClustersWith_family_eq (buildGraph eos es) (buildGraph_inv eos es)
    adj1 adj2 o1 o2 uni1 uni2 hmem1 hmem2 ho1 ho2 hperm

/-- Witness for C9 at a concrete input (the graph of one pending edge,
with the default adjacency and orders on both sides). -/
theorem c9_membership_deterministic_witness :
    (∀ i j, j ∈ adjOf (buildGraph "entity"
        [{ id := "e1", entity_id_1 := some "a", entity_id_2 := some "b",
           service_id_1 := none, service_id_2 := none,
           confirmed_status := some "PENDING_REVIEW", details := none }]) i ↔
      j ∈ adjOf (buildGraph "entity"
        [{ id := "e1", entity_id_1 := some "a", entity_id_2 := some "b",
           service_id_1 := none, service_id_2 := none,
           confirmed_status := some "PENDING_REVIEW", details := none }]) i) ∧
    (∀ i, i < (buildGraph "entity"
        [{ id := "e1", entity_id_1 := some "a", entity_id_2 := some "b",
           service_id_1 := none, service_id_2 := none,
           confirmed_status := some "PENDING_REVIEW",
           details := none }]).nodes.length → i ∈ [0, 1]) ∧
    ((deriveClustersWith (buildGraph "entity"
        [{ id := "e1", entity_id_1 := some "a", entity_id_2 := some "b",
           service_id_1 := none, service_id_2 := none,
           confirmed_status := some "PENDING_REVIEW", details := none }])
        (adjOf (buildGraph "entity"
          [{ id := "e1", entity_id_1 := some "a", entity_id_2 := some "b",
             service_id_1 := none, service_id_2 := none,
             confirmed_status := some "PENDING_REVIEW", details := none }]))
        [0, 1] ["u"]).map (fun c => c.members)).toFinset =
      ((deriveClustersWith (buildGraph "entity"
        [{ id := "e1", entity_id_1 := some "a", entity_id_2 := some "b",
           service_id_1 := none, service_id_2 := none,
           confirmed_status := some "PENDING_REVIEW", details := none }])
        (adjOf (buildGraph "entity"
          [{ id := "e1", entity_id_1 := some "a", entity_id_2 := some "b",
             service_id_1 := none, service_id_2 := none,
             confirmed_status := some "PENDING_REVIEW", details := none }]))
        [1, 0] ["u"]).map (fun c => c.members)).toFinset :=
  ⟨fun i j => Iff.rfl,
   by decide,
   c9_membership_deterministic "entity" _ _ _ [0, 1] [1, 0] ["u"] ["u"]
     (fun i j => Iff.rfl) (fun i j => Iff.rfl) (by decide) (by decide)
     (List.Perm.refl _)⟩

/-- Claim C10, as stated, is false in full generality: a NULL-status edge
with an empty selected endpoint ID is skipped, not kept. -/
theorem c10_claim_counterexample :
    ({ id := "e1", entity_id_1 := some "", entity_id_2 := some "z",
       service_id_1 := none, service_id_2 := none,
       confirmed_status := none,
       details := none } : RawEdgeVisualization).confirmed_status = none ∧
    (buildGraph "entity"
        [{ id := "e1", entity_id_1 := some "", entity_id_2 := some "z",
           service_id_1 := none, service_id_2 := none,
           confirmed_status := none, details := none }]).edges = [] ∧
    (buildGraph "entity"
        [{ id := "e1", entity_id_1 := some "", entity_id_2 := some "z",
           service_id_1 := none, service_id_2 := none,
           confirmed_status := none, details := none }]).viz = [] := by
  decide

/-- Claim C10 (amended): a fetched edge with both selected endpoint IDs
nonempty and absent (NULL) `confirmed_status` is treated as
`PENDING_REVIEW`: it is kept as a valid connection, its visualization
tuple carries the status string `PENDING_REVIEW`, and its two endpoints
land in one common derived cluster. -/
theorem c10_null_status_pending (eos : String)
    (es : List RawEdgeVisualization) (uni : List String)
    (e : RawEdgeVisualization) (he : e ∈ es)
    (h1 : getId1 eos e ≠ "") (h2 : getId2 eos e ≠ "")
    (hs : e.confirmed_status = none) :
    keepEdge eos e = true ∧
    vizTuple eos e ∈ (buildGraph eos es).viz ∧
    (vizTuple eos e).2.2.2.2 = "PENDING_REVIEW" ∧
    ∃ c ∈ deriveClusters (buildGraph eos es) uni,
      getId1 eos e ∈ c.members ∧ getId2 eos e ∈ c.members := by
  have hkeep : keepEdge eos e = true := by
    rw [keepEdge_iff]
    refine ⟨by rw [not_or]; exact ⟨h1, h2⟩, ?_⟩
    rw [effectiveStatus, hs]
    rfl
  refine ⟨hkeep, ?_, ?_, ?_⟩
  · rw [buildGraph_viz]
    exact List.mem_map_of_mem _ (List.mem_filter.mpr ⟨he, hkeep⟩)
  · rw [vizTuple]
    show effectiveStatus e = "PENDING_REVIEW"
    rw [effectiveStatus, hs]
    rfl
  · exact endpoints_same_cluster eos es uni e he hkeep

/-- Witness for C10 at a concrete input: a NULL-status edge `a — b`. -/
theorem c10_null_status_pending_witness :
    (({ id := "e1", entity_id_1 := some "a", entity_id_2 := some "b",
        service_id_1 := none, service_id_2 := none,
        confirmed_status := none,
        details := none } : RawEdgeVisualization) ∈
        [({ id := "e1", entity_id_1 := some "a", entity_id_2 := some "b",
            service_id_1 := none, service_id_2 := none,
            confirmed_status := none,
            details := none } : RawEdgeVisualization)] ∧
      getId1 "entity"
        { id := "e1", entity_id_1 := some "a", entity_id_2 := some "b",
          service_id_1 := none, service_id_2 := none,
          confirmed_status := none, details := none } ≠ "" ∧
      getId2 "entity"
        { id := "e1", entity_id_1 := some "a", entity_id_2 := some "b",
          service_id_1 := none, service_id_2 := none,
          confirmed_status := none, details := none } ≠ "") ∧
    (keepEdge "entity"
        { id := "e1", entity_id_1 := some "a", entity_id_2 := some "b",
          service_id_1 := none, service_id_2 := none,
          confirmed_status := none, details := none } = true ∧
      vizTuple "entity"
          { id := "e1", entity_id_1 := some "a", entity_id_2 := some "b",
            service_id_1 := none, service_id_2 := none,
            confirmed_status := none, details := none } ∈
        (buildGraph "entity"
          [{ id := "e1", entity_id_1 := some "a", entity_id_2 := some "b",
             service_id_1 := none, service_id_2 := none,
             confirmed_status := none, details := none }]).viz ∧
      (vizTuple "entity"
          { id := "e1", entity_id_1 := some "a", entity_id_2 := some "b",
            service_id_1 := none, service_id_2 := none,
            confirmed_status := none, details := none }).2.2.2.2 =
        "PENDING_REVIEW" ∧
      ∃ c ∈ deriveClusters
          (buildGraph "entity"
            [{ id := "e1", entity_id_1 := some "a", entity_id_2 := some "b",
               service_id_1 := none, service_id_2 := none,
               confirmed_status := none, details := none }]) ["u"],
        getId1 "entity"
            { id := "e1", entity_id_1 := some "a", entity_id_2 := some "b",
              service_id_1 := none, service_id_2 := none,
              confirmed_status := none, details := none } ∈ c.members ∧
        getId2 "entity"
            { id := "e1", entity_id_1 := some "a", entity_id_2 := some "b",
              service_id_1 := none, service_id_2 := none,
              confirmed_status := none, details := none } ∈ c.members) :=
  ⟨⟨by decide, by decide, by decide⟩,
    c10_null_status_pending "entity" _ ["u"] _ (List.mem_cons_self _ _)
      (by decide) (by decide) rfl⟩

end ExportOpinion
